import Mathlib

/-!
# Verification of the Petri net simulation core

Shallow embedding of the net/marking data model, the enablement and
concurrent-firing algorithm (`petri_model.py`) and the line-oriented text
codec (`petri_format.py`) of the `demo_iis` repository, together with
theorems settling the specification claims.

Conventions of the embedding:
* Python `int` is `Int`; Python lists are Lean `List`s.
* Python indexing `xs[i]` inside loops that range over valid indices is
  modelled with `List.getD` (default `0` / `[]`), written via the helpers
  `Wget` / `Mget`.
* The mutation of `self.M` is modelled by explicit state passing: functions
  return the new marking (and a flag or message where the source does).
* `random.choice` / `random.randint` are modelled by threading an explicit
  stream of draws (`rand : List Nat`); an arbitrary draw `r` selects index
  `r % n` among `n` candidates, so every behaviour of the source is a
  behaviour of the model for some stream, and conversely.
* The `while available_t:` loop of `step` is modelled with explicit fuel,
  initialised to `available_t.length`; each iteration removes the picked
  transition, so this fuel is always sufficient (proved below).
-/

/-- `self.MAX_TOKENS = 3` — the capacity bound of every place. -/
def MAX_TOKENS : Int := 3

/-- State of `PetriNetModel`: place count `P`, transition count `T`,
marking `M`, input matrix `W_in` and output matrix `W_out`
(`T × P`, transition → place). -/
structure PetriNetModel where
  P : Nat
  T : Nat
  M : List Int
  W_in : List (List Int)
  W_out : List (List Int)
deriving DecidableEq, Repr

/-- Matrix access `W[t][i]` (used by the source only at valid indices). -/
def Wget (W : List (List Int)) (t i : Nat) : Int := (W.getD t []).getD i 0

/-- Marking access `M[i]` (used by the source only at valid indices). -/
def Mget (M : List Int) (i : Nat) : Int := M.getD i 0

/-- `PetriNetModel.__init__(num_places, num_transitions)`: zero marking and
all-zero `T × P` matrices. -/
def PetriNetModel.init (num_places num_transitions : Nat) : PetriNetModel :=
  { P := num_places
    T := num_transitions
    M := List.replicate num_places 0
    W_in := List.replicate num_transitions (List.replicate num_places 0)
    W_out := List.replicate num_transitions (List.replicate num_places 0) }

/-- `is_enabled(t_index)`: `True` iff no place `i < P` has
`M[i] < W_in[t_index][i]`. -/
def PetriNetModel.is_enabled (s : PetriNetModel) (t_index : Nat) : Bool :=
  (List.range s.P).all fun i => !decide (Mget s.M i < Wget s.W_in t_index i)

/-- `fire_transitions(t_indices)`: check that the summed consumption does not
exceed the marking; on failure return `False` leaving `M` unchanged; on
success subtract all inputs, then add all outputs clamping each addition at
`MAX_TOKENS`, and return `True`.  The returned pair is
(return value, resulting `self.M`). -/
def PetriNetModel.fire_transitions (s : PetriNetModel) (t_indices : List Nat) :
    Bool × List Int :=
  let required : Nat → Int := fun i => (t_indices.map fun t => Wget s.W_in t i).sum
  if (List.range s.P).all (fun i => !decide (Mget s.M i < required i)) then
    let consumed := t_indices.foldl
      (fun M t => (List.range s.P).map fun i => Mget M i - Wget s.W_in t i) s.M
    let produced := t_indices.foldl
      (fun M t => (List.range s.P).map fun i =>
        min MAX_TOKENS (Mget M i + Wget s.W_out t i)) consumed
    (true, produced)
  else
    (false, s.M)

/-- The conflict test inside `step`: transitions `t` and `u` conflict iff some
place `i < P` has `W_in[t][i] == 1 and W_in[u][i] == 1`. -/
def PetriNetModel.conflicts (s : PetriNetModel) (t u : Nat) : Bool :=
  (List.range s.P).any fun i =>
    decide (Wget s.W_in t i = 1) && decide (Wget s.W_in u i = 1)

/-- One round of the `while available_t:` loop of `step`, with fuel:
pick `t_idx = random.choice(list(available_t))` (the draw `r` selects index
`r % |available_t|`), append it to the firing set, remove it and every
transition conflicting with it, and continue on the rest of the draws. -/
def PetriNetModel.select_loop_aux (s : PetriNetModel) :
    Nat → List Nat → List Nat → List Nat
  | 0, _, _ => []
  | _ + 1, [], _ => []
  | fuel + 1, a :: rest, rand =>
    let available := a :: rest
    let t_idx := available.getD (rand.headD 0 % available.length) 0
    let remaining := (available.erase t_idx).filter fun u => !s.conflicts t_idx u
    t_idx :: s.select_loop_aux fuel remaining rand.tail

/-- The greedy selection of a maximal non-conflicting subset in `step`,
run to completion (`available_t.length` iterations always suffice). -/
def PetriNetModel.select_loop (s : PetriNetModel) (available rand : List Nat) :
    List Nat :=
  s.select_loop_aux available.length available rand

/-- `[i for i in range(self.T) if self.is_enabled(i)]`. -/
def PetriNetModel.enabled_transitions (s : PetriNetModel) : List Nat :=
  (List.range s.T).filter fun i => s.is_enabled i

/-- The message returned by `step`: either the blocked-net message or the
message listing the fired transition indices. -/
inductive StepMsg where
  | blocked : StepMsg
  | fired : List Nat → StepMsg
deriving DecidableEq, Repr

/-- `step()`: compute the enabled transitions; if none, report a blocked net
and leave the state unchanged; otherwise greedily select a maximal
non-conflicting firing set, call `fire_transitions` (whose return value the
source discards), and report the firing set. -/
def PetriNetModel.step (s : PetriNetModel) (rand : List Nat) :
    StepMsg × PetriNetModel :=
  let enabled := s.enabled_transitions
  if enabled = [] then
    (.blocked, s)
  else
    let firing_set := s.select_loop enabled rand
    let result := s.fire_transitions firing_set
    (.fired firing_set, { s with M := result.2 })

/-- `random.randint(lo, hi)` for `lo ≤ hi`: the draw `r` selects the value
`lo + r % (hi - lo + 1)`, covering exactly the interval `[lo, hi]`. -/
def pyRandint (lo hi : Int) (r : Nat) : Int := lo + (r % (hi - lo + 1).toNat : Nat)

/-- `generate_random_marking()`: `self.M = [random.randint(0, MAX_TOKENS)
for _ in range(P)]`, with one draw per place. -/
def PetriNetModel.generate_random_marking (s : PetriNetModel) (draws : List Nat) :
    PetriNetModel :=
  { s with M := (List.range s.P).map fun i => pyRandint 0 MAX_TOKENS (draws.getD i 0) }

/-- `random.choice([0, 1])`: the draw selects one of the two values. -/
def pyChoice01 (r : Nat) : Int := if r % 2 = 0 then 0 else 1

/-- One row of `generate_random_net`: draw each of the `P` cells as
`random.choice([0, 1])`; if the row sums to zero, set the cell at
`random.randint(0, P - 1)` to `1`. -/
def gen_row (P : Nat) (draws : List Nat) (fix : Nat) : List Int :=
  let row := (List.range P).map fun i => pyChoice01 (draws.getD i 0)
  if row.sum = 0 then row.set (fix % P) 1 else row

/-- `generate_random_net()`: regenerate both matrices row by row, repairing
all-zero rows.  `din j` / `dout j` are the cell draws of row `j`, and
`fin' j` / `fout j` the repair draws. -/
def PetriNetModel.generate_random_net (s : PetriNetModel)
    (din dout : Nat → List Nat) (fin' fout : Nat → Nat) : PetriNetModel :=
  { s with
    W_in := (List.range s.T).map fun j => gen_row s.P (din j) (fin' j)
    W_out := (List.range s.T).map fun j => gen_row s.P (dout j) (fout j) }

/-- The dictionary shape produced by `to_dict` and consumed by `from_dict`
and returned by `parse_petri_from_text`. -/
structure NetDict where
  num_places : Nat
  num_transitions : Nat
  marking : List Int
  W_in : List (List Int)
  W_out : List (List Int)
deriving DecidableEq, Repr

/-- `from_dict(data)`: raise `ValueError` (here `none`) when the dimensions
differ from the live instance's, otherwise overwrite `M`, `W_in`, `W_out`
without any further validation. -/
def PetriNetModel.from_dict (s : PetriNetModel) (data : NetDict) :
    Option PetriNetModel :=
  if data.num_places ≠ s.P ∨ data.num_transitions ≠ s.T then
    none
  else
    some { s with M := data.marking, W_in := data.W_in, W_out := data.W_out }

/-! ## Structural invariants of the data model (§3 of the spec) -/

/-- Every cell of the matrix is `0` or `1`. -/
def BinaryMatrix (W : List (List Int)) : Prop :=
  ∀ r ∈ W, ∀ v ∈ r, v = 0 ∨ v = 1

/-- Every marking value is nonnegative. -/
def NonnegMarking (M : List Int) : Prop := ∀ v ∈ M, 0 ≤ v

/-- Every marking value lies in `[0, MAX_TOKENS]`. -/
def BoundedMarking (M : List Int) : Prop := ∀ v ∈ M, 0 ≤ v ∧ v ≤ MAX_TOKENS

instance (W : List (List Int)) : Decidable (BinaryMatrix W) := by
  unfold BinaryMatrix; infer_instance

instance (M : List Int) : Decidable (NonnegMarking M) := by
  unfold NonnegMarking; infer_instance

instance (M : List Int) : Decidable (BoundedMarking M) := by
  unfold BoundedMarking; infer_instance

theorem BinaryMatrix.wget {W : List (List Int)} (h : BinaryMatrix W) (t i : Nat) :
    Wget W t i = 0 ∨ Wget W t i = 1 := by
  unfold Wget
  rcases Nat.lt_or_ge t W.length with ht | ht
  · have hrow : W.getD t [] ∈ W := by
      rw [List.getD_eq_getElem _ _ ht]; exact List.getElem_mem ht
    rcases Nat.lt_or_ge i (W.getD t []).length with hi | hi
    · have : (W.getD t []).getD i 0 ∈ W.getD t [] := by
        rw [List.getD_eq_getElem _ _ hi]; exact List.getElem_mem hi
      exact h _ hrow _ this
    · rw [List.getD_eq_default _ _ hi]; left; rfl
  · rw [List.getD_eq_default _ _ ht]; left; simp [List.getD]

theorem NonnegMarking.mget_nonneg {M : List Int} (h : NonnegMarking M) (i : Nat) :
    0 ≤ Mget M i := by
  unfold Mget
  rcases Nat.lt_or_ge i M.length with hi | hi
  · have : M.getD i 0 ∈ M := by
      rw [List.getD_eq_getElem _ _ hi]; exact List.getElem_mem hi
    exact h _ this
  · rw [List.getD_eq_default _ _ hi]

theorem BoundedMarking.mget_bounds {M : List Int} (h : BoundedMarking M) (i : Nat) :
    0 ≤ Mget M i ∧ Mget M i ≤ MAX_TOKENS := by
  unfold Mget
  rcases Nat.lt_or_ge i M.length with hi | hi
  · have : M.getD i 0 ∈ M := by
      rw [List.getD_eq_getElem _ _ hi]; exact List.getElem_mem hi
    exact h _ this
  · rw [List.getD_eq_default _ _ hi]
    exact ⟨le_refl 0, by norm_num [MAX_TOKENS]⟩

theorem BoundedMarking.nonneg {M : List Int} (h : BoundedMarking M) :
    NonnegMarking M := fun v hv => (h v hv).1

/-! ## Properties of the greedy selection loop -/

/-- The transition picked from a non-empty `available_t` belongs to it. -/
theorem pick_mem (avail : List Nat) (h : avail ≠ []) (r : Nat) :
    avail.getD (r % avail.length) 0 ∈ avail := by
  have hlen : 0 < avail.length := List.length_pos.mpr h
  have hlt : r % avail.length < avail.length := Nat.mod_lt _ hlen
  rw [List.getD_eq_getElem _ _ hlt]
  exact List.getElem_mem hlt

/-- Combined invariant of the selection loop: every selected transition comes
from `available_t`; the selection has no duplicates; selected transitions are
pairwise non-conflicting; every available transition is either selected or
conflicts with a selected one; and a non-empty `available_t` yields a
non-empty selection. -/
theorem select_loop_aux_spec (s : PetriNetModel) :
    ∀ (fuel : Nat) (avail rand : List Nat), avail.length ≤ fuel → avail.Nodup →
      (∀ x ∈ s.select_loop_aux fuel avail rand, x ∈ avail) ∧
      (s.select_loop_aux fuel avail rand).Nodup ∧
      (s.select_loop_aux fuel avail rand).Pairwise
        (fun a b => s.conflicts a b = false) ∧
      (∀ u ∈ avail, u ∈ s.select_loop_aux fuel avail rand ∨
        ∃ t ∈ s.select_loop_aux fuel avail rand, s.conflicts t u = true) ∧
      (avail ≠ [] → s.select_loop_aux fuel avail rand ≠ []) := by
  intro fuel
  induction fuel with
  | zero =>
    intro avail rand hlen _
    have : avail = [] := List.eq_nil_of_length_eq_zero (Nat.le_zero.mp hlen)
    subst this
    simp [PetriNetModel.select_loop_aux]
  | succ fuel ih =>
    intro avail rand hlen hnd
    cases avail with
    | nil => simp [PetriNetModel.select_loop_aux]
    | cons a rest =>
      set avl : List Nat := a :: rest with havl
      set t_idx : Nat := avl.getD (rand.headD 0 % avl.length) 0 with ht
      set remaining : List Nat :=
        (avl.erase t_idx).filter (fun u => !s.conflicts t_idx u) with hrem
      have hsel : s.select_loop_aux (fuel + 1) avl rand =
          t_idx :: s.select_loop_aux fuel remaining rand.tail := by
        simp only [PetriNetModel.select_loop_aux, havl, ht, hrem]
      have htmem : t_idx ∈ avl := pick_mem avl (by simp [havl]) _
      have hrem_sub_erase : remaining ⊆ avl.erase t_idx := by
        rw [hrem]; exact List.filter_subset' _
      have hrem_sub : remaining ⊆ avl := fun x hx =>
        List.erase_subset _ _ (hrem_sub_erase hx)
      have hrem_len : remaining.length ≤ fuel := by
        have h1 : remaining.length ≤ (avl.erase t_idx).length :=
          List.Sublist.length_le (by rw [hrem]; exact List.filter_sublist _)
        have h2 : (avl.erase t_idx).length = avl.length - 1 :=
          List.length_erase_of_mem htmem
        have h3 : avl.length ≤ fuel + 1 := hlen
        omega
      have hrem_nd : remaining.Nodup := by
        rw [hrem]; exact (hnd.erase t_idx).filter _
      obtain ⟨ihsub, ihnd, ihpw, ihmax, _⟩ :=
        ih remaining rand.tail hrem_len hrem_nd
      have ht_not_rem : t_idx ∉ remaining := by
        intro hmem
        have := hrem_sub_erase hmem
        rw [List.Nodup.mem_erase_iff hnd] at this
        exact this.1 rfl
      refine ⟨?_, ?_, ?_, ?_, ?_⟩
      · intro x hx
        rw [hsel] at hx
        rcases List.mem_cons.mp hx with hx | hx
        · rw [hx]; exact htmem
        · exact hrem_sub (ihsub x hx)
      · rw [hsel]
        exact List.Nodup.cons (fun hmem => ht_not_rem (ihsub _ hmem)) ihnd
      · rw [hsel]
        refine List.Pairwise.cons ?_ ihpw
        intro b hb
        have hbrem : b ∈ remaining := ihsub b hb
        rw [hrem, List.mem_filter] at hbrem
        simpa using hbrem.2
      · intro u hu
        rw [hsel]
        by_cases hut : u = t_idx
        · left; rw [hut]; exact List.mem_cons_self _ _
        · cases hc : s.conflicts t_idx u with
          | true =>
            right
            exact ⟨t_idx, List.mem_cons_self _ _, hc⟩
          | false =>
            have hurem : u ∈ remaining := by
              rw [hrem, List.mem_filter]
              exact ⟨(List.mem_erase_of_ne hut).mpr hu, by simp [hc]⟩
            rcases ihmax u hurem with hin | ⟨t', ht', hconf⟩
            · left; exact List.mem_cons_of_mem _ hin
            · right; exact ⟨t', List.mem_cons_of_mem _ ht', hconf⟩
      · intro _
        rw [hsel]
        exact List.cons_ne_nil _ _

/-- `conflicts` unfolded to its defining property. -/
theorem conflicts_iff (s : PetriNetModel) (t u : Nat) :
    s.conflicts t u = true ↔
      ∃ i < s.P, Wget s.W_in t i = 1 ∧ Wget s.W_in u i = 1 := by
  simp [PetriNetModel.conflicts, List.any_eq_true, List.mem_range]

/-- The conflict relation of the source is symmetric. -/
theorem conflicts_symm (s : PetriNetModel) (t u : Nat) :
    s.conflicts t u = s.conflicts u t := by
  have h : ∀ a b, s.conflicts a b = true → s.conflicts b a = true := by
    intro a b hab
    rw [conflicts_iff] at hab ⊢
    obtain ⟨i, hi, h1, h2⟩ := hab
    exact ⟨i, hi, h2, h1⟩
  cases hc : s.conflicts t u with
  | true => exact (h t u hc).symm
  | false =>
    cases hc' : s.conflicts u t with
    | true => exact absurd (h u t hc') (by simp [hc])
    | false => rfl

/-- Membership in `enabled_transitions`. -/
theorem mem_enabled_transitions (s : PetriNetModel) (u : Nat) :
    u ∈ s.enabled_transitions ↔ u < s.T ∧ s.is_enabled u = true := by
  simp [PetriNetModel.enabled_transitions, List.mem_filter, List.mem_range]

/-- `enabled_transitions` has no duplicates. -/
theorem enabled_transitions_nodup (s : PetriNetModel) :
    s.enabled_transitions.Nodup :=
  (List.nodup_range s.T).filter _

/-- Specialisation of the loop invariant to the call made by `step`. -/
theorem select_loop_spec (s : PetriNetModel) (rand : List Nat) :
    (∀ x ∈ s.select_loop s.enabled_transitions rand, x ∈ s.enabled_transitions) ∧
    (s.select_loop s.enabled_transitions rand).Nodup ∧
    (s.select_loop s.enabled_transitions rand).Pairwise
      (fun a b => s.conflicts a b = false) ∧
    (∀ u ∈ s.enabled_transitions,
      u ∈ s.select_loop s.enabled_transitions rand ∨
      ∃ t ∈ s.select_loop s.enabled_transitions rand, s.conflicts t u = true) ∧
    (s.enabled_transitions ≠ [] → s.select_loop s.enabled_transitions rand ≠ []) :=
  select_loop_aux_spec s _ _ rand (le_refl _) (enabled_transitions_nodup s)

/-! ## Arithmetic of `fire_transitions` -/

/-- Reading place `p < P` of a marking rebuilt by a `for i in range(P)` loop. -/
theorem getD_map_range (f : Nat → Int) {P p : Nat} (h : p < P) :
    Mget ((List.range P).map f) p = f p := by
  unfold Mget
  have hlen : p < ((List.range P).map f).length := by simpa using h
  rw [List.getD_eq_getElem _ _ hlen, List.getElem_map, List.getElem_range]

/-- The consumption loops of `fire_transitions`: place `p` ends at
`M[p] - Σ_{t ∈ ts} W_in[t][p]`. -/
theorem consume_fold (W : List (List Int)) (P : Nat) :
    ∀ (ts : List Nat) (M : List Int) (p : Nat), p < P →
      Mget (ts.foldl
        (fun M t => (List.range P).map fun i => Mget M i - Wget W t i) M) p =
      Mget M p - (ts.map fun t => Wget W t p).sum := by
  intro ts
  induction ts with
  | nil => intro M p _; simp
  | cons t ts ih =>
    intro M p hp
    rw [List.foldl_cons, ih _ p hp, getD_map_range _ hp, List.map_cons,
      List.sum_cons]
    ring

/-- The production loops of `fire_transitions`: for a non-empty firing list
and nonnegative output weights, the per-transition clamping is equivalent to
a single clamp of the summed production. -/
theorem produce_fold (W : List (List Int)) (P : Nat) :
    ∀ (ts : List Nat) (M : List Int) (p : Nat), ts ≠ [] → p < P →
      (∀ t p', 0 ≤ Wget W t p') →
      Mget (ts.foldl
        (fun M t => (List.range P).map fun i =>
          min MAX_TOKENS (Mget M i + Wget W t i)) M) p =
      min MAX_TOKENS (Mget M p + (ts.map fun t => Wget W t p).sum) := by
  intro ts
  induction ts with
  | nil => intro M p hne _ _; exact absurd rfl hne
  | cons t ts ih =>
    intro M p _ hp hw
    cases ts with
    | nil =>
      rw [List.foldl_cons, List.foldl_nil, getD_map_range _ hp]
      simp
    | cons a l =>
      rw [List.foldl_cons, ih _ p (List.cons_ne_nil a l) hp hw,
        getD_map_range _ hp]
      have hsum : 0 ≤ ((a :: l).map fun u => Wget W u p).sum :=
        List.sum_nonneg (by
          intro x hx
          rw [List.mem_map] at hx
          obtain ⟨u, _, rfl⟩ := hx
          exact hw u p)
      simp only [List.map_cons, List.sum_cons] at hsum ⊢
      simp only [MAX_TOKENS]
      omega

/-- A sum of `{0,1}`-valued terms over a duplicate-free list in which no two
distinct members are both `1` is at most `1`. -/
theorem sum_binary_le_one (l : List Nat) (f : Nat → Int) (hnd : l.Nodup)
    (hbin : ∀ u ∈ l, f u = 0 ∨ f u = 1)
    (hconf : ∀ u ∈ l, ∀ v ∈ l, u ≠ v → f u = 1 → f v = 1 → False) :
    (l.map f).sum ≤ 1 := by
  induction l with
  | nil => simp
  | cons a l ih =>
    rw [List.map_cons, List.sum_cons]
    rcases hbin a (List.mem_cons_self a l) with h0 | h1
    · rw [h0, zero_add]
      exact ih (List.Nodup.of_cons hnd)
        (fun u hu => hbin u (List.mem_cons_of_mem a hu))
        (fun u hu v hv => hconf u (List.mem_cons_of_mem a hu) v
          (List.mem_cons_of_mem a hv))
    · have hrest : (l.map f).sum = 0 := by
        apply List.sum_eq_zero
        intro x hx
        rw [List.mem_map] at hx
        obtain ⟨v, hv, rfl⟩ := hx
        rcases hbin v (List.mem_cons_of_mem a hv) with h | h
        · exact h
        · exfalso
          have hav : a ≠ v := by
            rintro rfl
            exact (List.nodup_cons.mp hnd).1 hv
          exact hconf a (List.mem_cons_self a l) v (List.mem_cons_of_mem a hv)
            hav h1 h
      rw [h1, hrest]
      norm_num

/-- `is_enabled` unfolded to its defining property. -/
theorem is_enabled_iff (s : PetriNetModel) (t : Nat) :
    s.is_enabled t = true ↔ ∀ i < s.P, Wget s.W_in t i ≤ Mget s.M i := by
  simp [PetriNetModel.is_enabled, List.all_eq_true, List.mem_range, not_lt]

/-- For a firing set built by the greedy selection from the enabled
transitions of a binary-input net with nonnegative marking, the summed
requirement at every place `i < P` is covered by the marking. -/
theorem step_required_le (s : PetriNetModel) (rand : List Nat)
    (hbin : BinaryMatrix s.W_in) (hM : NonnegMarking s.M)
    (i : Nat) (hi : i < s.P) :
    ((s.select_loop s.enabled_transitions rand).map
      fun t => Wget s.W_in t i).sum ≤ Mget s.M i := by
  obtain ⟨hsub, hnd, hpw, _, _⟩ := select_loop_spec s rand
  set fs := s.select_loop s.enabled_transitions rand with hfs
  by_cases hex : ∃ t ∈ fs, Wget s.W_in t i = 1
  · obtain ⟨t0, ht0, hw0⟩ := hex
    have hsymm : Symmetric (fun a b => s.conflicts a b = false) := by
      intro a b hab
      rw [conflicts_symm]
      exact hab
    have hsum_le : (fs.map fun t => Wget s.W_in t i).sum ≤ 1 := by
      apply sum_binary_le_one fs _ hnd (fun u _ => hbin.wget u i)
      intro u hu v hv huv h1 h2
      have hfalse := List.Pairwise.forall hsymm hpw hu hv huv
      have htrue : s.conflicts u v = true :=
        (conflicts_iff s u v).mpr ⟨i, hi, h1, h2⟩
      rw [htrue] at hfalse
      exact Bool.noConfusion hfalse
    have h1M : (1 : Int) ≤ Mget s.M i := by
      have hen : s.is_enabled t0 = true :=
        ((mem_enabled_transitions s t0).mp (hsub t0 ht0)).2
      have := (is_enabled_iff s t0).mp hen i hi
      rw [hw0] at this
      exact this
    exact le_trans hsum_le h1M
  · push_neg at hex
    have hzero : (fs.map fun t => Wget s.W_in t i).sum = 0 := by
      apply List.sum_eq_zero
      intro x hx
      rw [List.mem_map] at hx
      obtain ⟨t, ht, rfl⟩ := hx
      exact (hbin.wget t i).resolve_right (hex t ht)
    rw [hzero]
    exact hM.mget_nonneg i

/-- The guard of `fire_transitions` evaluates to `True` on every firing set
produced by `step`'s greedy selection. -/
theorem step_check_true (s : PetriNetModel) (rand : List Nat)
    (hbin : BinaryMatrix s.W_in) (hM : NonnegMarking s.M) :
    (List.range s.P).all (fun i => !decide (Mget s.M i <
      ((s.select_loop s.enabled_transitions rand).map
        fun t => Wget s.W_in t i).sum)) = true := by
  rw [List.all_eq_true]
  intro i hi
  rw [List.mem_range] at hi
  simp only [Bool.not_eq_true', decide_eq_false_iff_not, not_lt]
  exact step_required_le s rand hbin hM i hi

/-! ## Claim theorems about `step` -/

/-- `step` on a non-blocked net, unfolded. -/
theorem step_eq_of_enabled (s : PetriNetModel) (rand : List Nat)
    (he : s.enabled_transitions ≠ []) :
    s.step rand = (.fired (s.select_loop s.enabled_transitions rand),
      { s with M := (s.fire_transitions
          (s.select_loop s.enabled_transitions rand)).2 }) := by
  simp [PetriNetModel.step, he]

/-- A firing message determines the firing set. -/
theorem step_fired_eq (s : PetriNetModel) (rand : List Nat) (fs : List Nat)
    (he : s.enabled_transitions ≠ [])
    (hfs : (s.step rand).1 = StepMsg.fired fs) :
    fs = s.select_loop s.enabled_transitions rand := by
  rw [step_eq_of_enabled s rand he] at hfs
  exact (StepMsg.fired.injEq _ _ ▸ hfs).symm

/-- A blocked net never reports a firing. -/
theorem step_fired_not_blocked (s : PetriNetModel) (rand : List Nat)
    (fs : List Nat) (hfs : (s.step rand).1 = StepMsg.fired fs) :
    s.enabled_transitions ≠ [] := by
  intro he
  rw [PetriNetModel.step] at hfs
  simp [he] at hfs

/-- Marking formula of a fired step (helper shared by several theorems):
with binary matrices and a nonnegative marking, each place `p < P` of the
post-step marking equals
`min(MAX_TOKENS, M[p] - Σ_{t ∈ fs} W_in[t][p] + Σ_{t ∈ fs} W_out[t][p])`. -/
theorem step_fired_marking (s : PetriNetModel) (rand : List Nat) (fs : List Nat)
    (hbin_in : BinaryMatrix s.W_in) (hbin_out : BinaryMatrix s.W_out)
    (hM : NonnegMarking s.M)
    (hfs : (s.step rand).1 = StepMsg.fired fs) (p : Nat) (hp : p < s.P) :
    Mget (s.step rand).2.M p =
      min MAX_TOKENS (Mget s.M p - (fs.map fun t => Wget s.W_in t p).sum
        + (fs.map fun t => Wget s.W_out t p).sum) := by
  have he : s.enabled_transitions ≠ [] := step_fired_not_blocked s rand fs hfs
  have hfs' := step_fired_eq s rand fs he hfs
  subst hfs'
  rw [step_eq_of_enabled s rand he]
  have hcheck := step_check_true s rand hbin_in hM
  have hne : s.select_loop s.enabled_transitions rand ≠ [] :=
    (select_loop_spec s rand).2.2.2.2 he
  have hout : ∀ t p', 0 ≤ Wget s.W_out t p' := by
    intro t p'
    rcases hbin_out.wget t p' with h | h <;> simp [h]
  simp only [PetriNetModel.fire_transitions, hcheck, if_true]
  rw [produce_fold s.W_out s.P _ _ p hne hp hout, consume_fold s.W_in s.P _ _ p hp]

/-- **C1 (conservation under firing).**  If `step` reports firing set `fs`
on a valid net (binary matrices, nonnegative marking — the §3 data-model
invariants), then for every place `p < P` the post-step marking satisfies
`new_M[p] = min(MAX_TOKENS, M[p] - Σ_{t ∈ fs} W_in[t][p] +
Σ_{t ∈ fs} W_out[t][p])`; in particular the per-transition clamping of the
production loop of `fire_transitions` is equivalent to this single clamp of
the summed production. -/
theorem step_conservation (s : PetriNetModel) (rand : List Nat) (fs : List Nat)
    (hbin_in : BinaryMatrix s.W_in) (hbin_out : BinaryMatrix s.W_out)
    (hM : NonnegMarking s.M)
    (hfs : (s.step rand).1 = StepMsg.fired fs) (p : Nat) (hp : p < s.P) :
    Mget (s.step rand).2.M p =
      min MAX_TOKENS (Mget s.M p - (fs.map fun t => Wget s.W_in t p).sum
        + (fs.map fun t => Wget s.W_out t p).sum) :=
  step_fired_marking s rand fs hbin_in hbin_out hM hfs p hp

/-- **C2 (non-conflict).**  Any two distinct members of a reported firing
set require no common input place. -/
theorem step_non_conflict (s : PetriNetModel) (rand : List Nat) (fs : List Nat)
    (hfs : (s.step rand).1 = StepMsg.fired fs) (t1 t2 : Nat)
    (h1 : t1 ∈ fs) (h2 : t2 ∈ fs) (hne : t1 ≠ t2) :
    ¬ ∃ p < s.P, Wget s.W_in t1 p = 1 ∧ Wget s.W_in t2 p = 1 := by
  have he : s.enabled_transitions ≠ [] := step_fired_not_blocked s rand fs hfs
  have hfs' := step_fired_eq s rand fs he hfs
  subst hfs'
  obtain ⟨_, _, hpw, _, _⟩ := select_loop_spec s rand
  intro hex
  have hsymm : Symmetric (fun a b => s.conflicts a b = false) := by
    intro a b hab
    rw [conflicts_symm]
    exact hab
  have hfalse := List.Pairwise.forall hsymm hpw h1 h2 hne
  have htrue : s.conflicts t1 t2 = true := (conflicts_iff s t1 t2).mpr hex
  rw [htrue] at hfalse
  exact Bool.noConfusion hfalse

/-- **C3 (maximality).**  Every transition enabled under the pre-step marking
but not in the reported firing set shares a required input place with some
member of the firing set. -/
theorem step_maximality (s : PetriNetModel) (rand : List Nat) (fs : List Nat)
    (hfs : (s.step rand).1 = StepMsg.fired fs) (u : Nat) (hu : u < s.T)
    (hen : s.is_enabled u = true) (hnot : u ∉ fs) :
    ∃ t ∈ fs, ∃ p < s.P, Wget s.W_in t p = 1 ∧ Wget s.W_in u p = 1 := by
  have he : s.enabled_transitions ≠ [] := step_fired_not_blocked s rand fs hfs
  have hfs' := step_fired_eq s rand fs he hfs
  subst hfs'
  obtain ⟨_, _, _, hmax, _⟩ := select_loop_spec s rand
  have humem : u ∈ s.enabled_transitions :=
    (mem_enabled_transitions s u).mpr ⟨hu, hen⟩
  rcases hmax u humem with hin | ⟨t, ht, hconf⟩
  · exact absurd hin hnot
  · obtain ⟨p, hp, hpt, hpu⟩ := (conflicts_iff s t u).mp hconf
    exact ⟨t, ht, p, hp, hpt, hpu⟩

/-- **C6 (blocked case).**  If no transition is enabled, `step` reports the
blocked-net message and returns the state — in particular the marking —
entirely unchanged. -/
theorem step_blocked (s : PetriNetModel) (rand : List Nat)
    (h : ∀ t < s.T, s.is_enabled t = false) :
    s.step rand = (StepMsg.blocked, s) := by
  have he : s.enabled_transitions = [] := by
    apply List.filter_eq_nil_iff.mpr
    intro a ha
    rw [List.mem_range] at ha
    simp [h a ha]
  simp [PetriNetModel.step, he]

/-- **C7 (re-validation is unreachable).**  On a binary-input net with
nonnegative marking, `fire_transitions` applied to the firing set selected
by `step` always passes its defensive check and returns `True` — the failure
branch is dead code on this call path. -/
theorem step_revalidation_unreachable (s : PetriNetModel) (rand : List Nat)
    (hbin : BinaryMatrix s.W_in) (hM : NonnegMarking s.M) :
    (s.fire_transitions (s.select_loop s.enabled_transitions rand)).1 = true := by
  have hcheck := step_check_true s rand hbin hM
  simp only [PetriNetModel.fire_transitions, hcheck, if_true]

/-- **C10 (progress).**  If some transition is enabled, the step reports a
non-empty firing set. -/
theorem step_progress (s : PetriNetModel) (rand : List Nat)
    (h : ∃ t, t < s.T ∧ s.is_enabled t = true) :
    ∃ fs, (s.step rand).1 = StepMsg.fired fs ∧ fs ≠ [] := by
  obtain ⟨t, ht, hen⟩ := h
  have he : s.enabled_transitions ≠ [] :=
    List.ne_nil_of_mem ((mem_enabled_transitions s t).mpr ⟨ht, hen⟩)
  refine ⟨s.select_loop s.enabled_transitions rand, ?_, ?_⟩
  · rw [step_eq_of_enabled s rand he]
  · exact (select_loop_spec s rand).2.2.2.2 he

/-! ## Concrete nets used by the witnesses (scenarios of §8 of the spec) -/

/-- `P = 2, T = 1, W_in = [[1,0]], W_out = [[0,1]], M = [1,0]`. -/
def exNet : PetriNetModel :=
  { P := 2, T := 1, M := [1, 0], W_in := [[1, 0]], W_out := [[0, 1]] }

/-- Same net with the empty marking `M = [0,0]`. -/
def exNetBlocked : PetriNetModel :=
  { P := 2, T := 1, M := [0, 0], W_in := [[1, 0]], W_out := [[0, 1]] }

/-- Two independent transitions: `W_in = [[1,0],[0,1]]`, `M = [1,1]`. -/
def exNetTwo : PetriNetModel :=
  { P := 2, T := 2, M := [1, 1], W_in := [[1, 0], [0, 1]],
    W_out := [[0, 1], [1, 0]] }

/-- Two conflicting transitions on one place: `W_in = [[1],[1]]`, `M = [1]`. -/
def exNetConf : PetriNetModel :=
  { P := 1, T := 2, M := [1], W_in := [[1], [1]], W_out := [[1], [1]] }

/-- Witness for C1: the §8 scenario, firing `{t1}` takes `M = [1,0]` to
`[0,1]`, matching the conservation formula at both places. -/
theorem step_conservation_witness :
    BinaryMatrix exNet.W_in ∧ BinaryMatrix exNet.W_out ∧
    NonnegMarking exNet.M ∧ (exNet.step [0]).1 = StepMsg.fired [0] ∧
    0 < exNet.P ∧ 1 < exNet.P ∧
    Mget (exNet.step [0]).2.M 0 =
      min MAX_TOKENS (Mget exNet.M 0 - ([0].map fun t => Wget exNet.W_in t 0).sum
        + ([0].map fun t => Wget exNet.W_out t 0).sum) ∧
    Mget (exNet.step [0]).2.M 1 =
      min MAX_TOKENS (Mget exNet.M 1 - ([0].map fun t => Wget exNet.W_in t 1).sum
        + ([0].map fun t => Wget exNet.W_out t 1).sum) :=
  ⟨by decide, by decide, by decide, by decide, by decide, by decide,
    step_conservation exNet [0] [0] (by decide) (by decide) (by decide)
      (by decide) 0 (by decide),
    step_conservation exNet [0] [0] (by decide) (by decide) (by decide)
      (by decide) 1 (by decide)⟩

/-- Witness for C2: both independent transitions of `exNetTwo` fire in one
step and indeed share no required input place. -/
theorem step_non_conflict_witness :
    (exNetTwo.step [0, 0]).1 = StepMsg.fired [0, 1] ∧ 0 ∈ [0, 1] ∧
    1 ∈ [0, 1] ∧ (0 : Nat) ≠ 1 ∧
    ¬ ∃ p < exNetTwo.P, Wget exNetTwo.W_in 0 p = 1 ∧ Wget exNetTwo.W_in 1 p = 1 :=
  ⟨by decide, by decide, by decide, by decide,
    step_non_conflict exNetTwo [0, 0] [0, 1] (by decide) 0 1 (by decide)
      (by decide) (by decide)⟩

/-- Witness for C3: in `exNetConf` the step fires `{t1}` only, and the
excluded enabled transition `t2` conflicts with `t1` at place `p1`. -/
theorem step_maximality_witness :
    (exNetConf.step [0]).1 = StepMsg.fired [0] ∧ 1 < exNetConf.T ∧
    exNetConf.is_enabled 1 = true ∧ 1 ∉ [0] ∧
    ∃ t ∈ [0], ∃ p < exNetConf.P,
      Wget exNetConf.W_in t p = 1 ∧ Wget exNetConf.W_in 1 p = 1 :=
  ⟨by decide, by decide, by decide, by decide,
    step_maximality exNetConf [0] [0] (by decide) 1 (by decide) (by decide)
      (by decide)⟩

/-- Witness for C6: the §8 blocked scenario `M = [0,0]`. -/
theorem step_blocked_witness :
    (∀ t < exNetBlocked.T, exNetBlocked.is_enabled t = false) ∧
    exNetBlocked.step [0] = (StepMsg.blocked, exNetBlocked) :=
  ⟨by decide, step_blocked exNetBlocked [0] (by decide)⟩

/-- Witness for C7: the check of `fire_transitions` passes on the firing set
selected by `step` in the §8 scenario. -/
theorem step_revalidation_unreachable_witness :
    BinaryMatrix exNet.W_in ∧ NonnegMarking exNet.M ∧
    (exNet.fire_transitions
      (exNet.select_loop exNet.enabled_transitions [0])).1 = true :=
  ⟨by decide, by decide,
    step_revalidation_unreachable exNet [0] (by decide) (by decide)⟩

/-- Witness for C10: the §8 scenario has an enabled transition and fires a
non-empty set. -/
theorem step_progress_witness :
    (∃ t, t < exNet.T ∧ exNet.is_enabled t = true) ∧
    ∃ fs, (exNet.step [0]).1 = StepMsg.fired fs ∧ fs ≠ [] :=
  ⟨⟨0, by decide, by decide⟩,
    step_progress exNet [0] ⟨0, by decide, by decide⟩⟩

/-! ## Text model (`petri_format.py`)

Python strings are modelled as `List Char` (`Str`).  The texts handled by
the codec use `'\n'` as the only line separator, so `str.splitlines` is
modelled as splitting on `'\n'`; `str.strip`/`rstrip` strip the whitespace
characters `' '`, `'\t'`, `'\n'`, `'\r'`; `str.lower` lowers ASCII
letters. -/

/-- Python strings, shallowly. -/
abbrev Str := List Char

/-- The whitespace test of `str.strip` / `str.split`, on the characters the
codec can meet. -/
def pyIsSpace (c : Char) : Bool := c == ' ' || c == '\t' || c == '\n' || c == '\r'

/-- `str.lower` on one ASCII character. -/
def pyToLower (c : Char) : Char :=
  if 'A' ≤ c ∧ c ≤ 'Z' then Char.ofNat (c.toNat + 32) else c

/-- `str.lower`. -/
def pyLower (s : Str) : Str := s.map pyToLower

/-- `str.lstrip()`. -/
def pyLstrip (s : Str) : Str := s.dropWhile pyIsSpace

/-- `str.rstrip()`. -/
def pyRstrip (s : Str) : Str := (s.reverse.dropWhile pyIsSpace).reverse

/-- `str.strip()`. -/
def pyStrip (s : Str) : Str := pyLstrip (pyRstrip s)

/-- `str.startswith(pattern)` (pattern first). -/
def pyStartswith : Str → Str → Bool
  | [], _ => true
  | _ :: _, [] => false
  | a :: pat, b :: s => a == b && pyStartswith pat s

/-- `str.split(":", 1)` when a colon exists: the text before the first
colon and the text after it; `none` when the string has no colon. -/
def splitFirstColon : Str → Option (Str × Str)
  | [] => none
  | c :: rest =>
    if c = ':' then some ([], rest)
    else
      match splitFirstColon rest with
      | none => none
      | some (a, b) => some (c :: a, b)

/-- `str.splitlines()` for `'\n'`-separated text (accumulator holds the
current line reversed). -/
def pySplitlinesAux : Str → Str → List Str
  | [], acc => if acc.isEmpty then [] else [acc.reverse]
  | c :: rest, acc =>
    if c = '\n' then acc.reverse :: pySplitlinesAux rest []
    else pySplitlinesAux rest (c :: acc)

/-- `str.splitlines()`. -/
def pySplitlines (s : Str) : List Str := pySplitlinesAux s []

/-- `str.split()` (split on whitespace runs, no empty tokens). -/
def pySplitAux : Str → Str → List Str
  | [], cur => if cur.isEmpty then [] else [cur.reverse]
  | c :: rest, cur =>
    if pyIsSpace c then
      if cur.isEmpty then pySplitAux rest []
      else cur.reverse :: pySplitAux rest []
    else pySplitAux rest (c :: cur)

/-- `str.split()`. -/
def pySplit (s : Str) : List Str := pySplitAux s []

/-- The decimal digit characters. -/
def digitChar (d : Nat) : Char :=
  ['0', '1', '2', '3', '4', '5', '6', '7', '8', '9'].getD d '0'

/-- Decimal printing of a natural number, with fuel (`n + 1` digits always
suffice); models Python `str` on nonnegative integers. -/
def natToStrAux : Nat → Nat → Str
  | 0, _ => []
  | fuel + 1, n =>
    if n < 10 then [digitChar n]
    else natToStrAux fuel (n / 10) ++ [digitChar (n % 10)]

/-- `str(n)` for a natural number. -/
def natToStr (n : Nat) : Str := natToStrAux (n + 1) n

/-- `str(v)` for an integer. -/
def intToStr (v : Int) : Str :=
  if v < 0 then '-' :: natToStr v.natAbs else natToStr v.toNat

/-- Is `c` one of `'0'..'9'`? -/
def isDigitChar (c : Char) : Bool :=
  decide (48 ≤ c.toNat) && decide (c.toNat ≤ 57)

/-- Value of a digit string. -/
def digitsToNat (s : Str) : Nat := s.foldl (fun a c => a * 10 + (c.toNat - 48)) 0

/-- `int(token)` on a whitespace-free token: an optional sign followed by at
least one digit; `none` models `ValueError`. -/
def pyInt : Str → Option Int
  | [] => none
  | '-' :: ds =>
    if !ds.isEmpty && ds.all isDigitChar then some (-(digitsToNat ds : Int))
    else none
  | '+' :: ds =>
    if !ds.isEmpty && ds.all isDigitChar then some ((digitsToNat ds : Int))
    else none
  | s => if s.all isDigitChar then some ((digitsToNat s : Int)) else none

/-- `sep.join(parts)` for a one-character separator. -/
def joinSep (sep : Char) : List Str → Str
  | [] => []
  | [l] => l
  | l :: rest => l ++ sep :: joinSep sep rest

/-! ### `format_petri_to_text` -/

/-- The literal line `"Marking:"`. -/
def strMarkingHdr : Str := ['M', 'a', 'r', 'k', 'i', 'n', 'g', ':']

/-- The literal line `"W_in:"`. -/
def strWinHdr : Str := ['W', '_', 'i', 'n', ':']

/-- The literal line `"W_out:"`. -/
def strWoutHdr : Str := ['W', '_', 'o', 'u', 't', ':']

/-- `"M: " + " ".join(str(x) for x in model.M)`. -/
def marking_line (M : List Int) : Str :=
  ['M', ':', ' '] ++ joinSep ' ' (M.map intToStr)

/-- `"    " + " ".join(f"p{i+1}" for i in range(model.P))`. -/
def header_line (P : Nat) : Str :=
  [' ', ' ', ' ', ' '] ++ joinSep ' ' ((List.range P).map fun i => 'p' :: natToStr (i + 1))

/-- `f"t{t+1}: " + " ".join(str(W[t][p]) for p in range(model.P))`. -/
def matrix_row_line (W : List (List Int)) (P t : Nat) : Str :=
  't' :: natToStr (t + 1) ++ [':', ' '] ++
    joinSep ' ' (((List.range P).map fun p => Wget W t p).map intToStr)

/-- The lines appended by `format_petri_to_text`, in source order. -/
def format_lines (s : PetriNetModel) : List Str :=
  [strMarkingHdr, marking_line s.M, []] ++
  [strWinHdr, header_line s.P] ++
  ((List.range s.T).map fun t => matrix_row_line s.W_in s.P t) ++
  [[]] ++
  [strWoutHdr, header_line s.P] ++
  ((List.range s.T).map fun t => matrix_row_line s.W_out s.P t)

/-- `format_petri_to_text(model)`: `"\n".join(lines) + "\n"`. -/
def format_petri_to_text (s : PetriNetModel) : Str :=
  joinSep '\n' (format_lines s) ++ ['\n']

/-! ### `parse_petri_from_text` -/

/-- The failure modes of `parse_petri_from_text`: one constructor per
`raise ValueError(...)` site, plus `indexError` for an out-of-range line
access `lines[rows_start + t]` (an uncaught Python `IndexError`, not a
`ValueError`). -/
inductive PErr where
  | emptyFile
  | noMarkingLine
  | badMarkingLine
  | markingNotInt
  | markingCount
  | markingRange
  | blockMissing
  | noHeaderLine
  | rowsTruncated
  | emptyRowLine
  | rowNoColon
  | rowBadLabel
  | rowNotInt
  | rowCount
  | cellNotBinary
  | rowAllZero
  | indexError
deriving DecidableEq, Repr

/-- Scan the lines from the top and return the suffix starting at the first
line satisfying `p` — the model of `find_line_starting`, which returns the
index `idx` of that line; the suffix is `lines[idx:]`, so index arithmetic
`idx + k` in the source becomes position `k` in the suffix. -/
def findSuffix (p : Str → Bool) : List Str → Option (List Str)
  | [] => none
  | l :: rest => if p l then some (l :: rest) else findSuffix p rest

/-- `line.strip().lower().startswith("m:")`. -/
def mPred (l : Str) : Bool := pyStartswith ['m', ':'] (pyLower (pyStrip l))

/-- `line.strip().lower().startswith("w_in")`. -/
def winPred (l : Str) : Bool := pyStartswith ['w', '_', 'i', 'n'] (pyLower (pyStrip l))

/-- `line.strip().lower().startswith("w_out")`. -/
def woutPred (l : Str) : Bool :=
  pyStartswith ['w', '_', 'o', 'u', 't'] (pyLower (pyStrip l))

/-- One matrix row `lines[rows_start + t]` of a block: `rows` is the line
list from `rows_start` on.  An out-of-range access is the source's uncaught
`IndexError`. -/
def parseRow (rows : List Str) (expected_P t : Nat) : Except PErr (List Int) :=
  match rows[t]? with
  | none => .error .indexError
  | some raw =>
    let line := pyStrip raw
    if line.isEmpty then .error .emptyRowLine
    else
      match splitFirstColon line with
      | none => .error .rowNoColon
      | some (label, data_part) =>
        if pyLower (pyStrip label) ≠ 't' :: natToStr (t + 1) then
          .error .rowBadLabel
        else
          match (pySplit data_part).mapM pyInt with
          | none => .error .rowNotInt
          | some nums =>
            if nums.length ≠ expected_P then .error .rowCount
            else if nums.any (fun v => !(v == 0 || v == 1)) then
              .error .cellNotBinary
            else if nums.sum = 0 then .error .rowAllZero
            else .ok nums

/-- One `W_in`/`W_out` block.  With the block line found at index `idx`
(here: head of `suffix`), the source's checks translate as
`header_idx >= len(lines)` ⟺ `suffix.length ≤ 1` and
`rows_start + expected_T > len(lines) + 1` ⟺
`suffix.length < expected_T + 1` (note the `+ 1`: a block truncated by
exactly one row slips past this guard and hits `indexError` below). -/
def parseBlock (lines : List Str) (blockPred : Str → Bool)
    (expected_P expected_T : Nat) : Except PErr (List (List Int)) :=
  match findSuffix blockPred lines with
  | none => .error .blockMissing
  | some suffix =>
    if suffix.length ≤ 1 then .error .noHeaderLine
    else if suffix.length < expected_T + 1 then .error .rowsTruncated
    else (List.range expected_T).mapM fun t => parseRow (suffix.drop 2) expected_P t

/-- `parse_petri_from_text(text, expected_P, expected_T, max_tokens)`. -/
def parse_petri_from_text (text : Str) (expected_P expected_T : Nat)
    (max_tokens : Int) : Except PErr NetDict :=
  let lines := (pySplitlines text).map pyRstrip
  if (lines.filter fun l => !(pyStrip l).isEmpty).isEmpty then .error .emptyFile
  else
    match lines.find? mPred with
    | none => .error .noMarkingLine
    | some mline =>
      let m_line := pyStrip mline
      match splitFirstColon m_line with
      | none => .error .badMarkingLine
      | some (_, after_colon) =>
        match (pySplit after_colon).mapM pyInt with
        | none => .error .markingNotInt
        | some marking_vals =>
          if marking_vals.length ≠ expected_P then .error .markingCount
          else if marking_vals.any (fun v =>
              decide (v < 0) || decide (max_tokens < v)) then
            .error .markingRange
          else
            match parseBlock lines winPred expected_P expected_T with
            | .error e => .error e
            | .ok W_in =>
              match parseBlock lines woutPred expected_P expected_T with
              | .error e => .error e
              | .ok W_out =>
                .ok { num_places := expected_P, num_transitions := expected_T,
                      marking := marking_vals, W_in := W_in, W_out := W_out }

deriving instance DecidableEq for Except

/-! ## Generic `mapM` lemmas (over `Except` and `Option`) -/

/-- Every element of a successful `Except`-`mapM` output comes from a
successful application on some input element. -/
theorem exceptMapM_ok_forall {ε α β : Type} (f : α → Except ε β) :
    ∀ {l : List α} {out : List β}, l.mapM f = .ok out →
      ∀ y ∈ out, ∃ x ∈ l, f x = .ok y := by
  intro l
  induction l with
  | nil =>
    intro out h y hy
    simp only [List.mapM_nil, pure, Except.pure, Except.ok.injEq] at h
    subst h
    exact absurd hy (List.not_mem_nil y)
  | cons a l ih =>
    intro out h y hy
    rw [List.mapM_cons] at h
    cases ha : f a with
    | error e =>
      rw [ha] at h
      simp only [bind, Except.bind] at h
      exact Except.noConfusion h
    | ok b =>
      rw [ha] at h
      cases hl : l.mapM f with
      | error e =>
        rw [hl] at h
        simp [Except.bind, bind, pure, Except.pure] at h
      | ok bs =>
        rw [hl] at h
        simp only [Except.bind, bind, pure, Except.pure, Except.ok.injEq] at h
        subst h
        rcases List.mem_cons.mp hy with rfl | hy'
        · exact ⟨a, List.mem_cons_self a l, ha⟩
        · obtain ⟨x, hx, hfx⟩ := ih hl y hy'
          exact ⟨x, List.mem_cons_of_mem a hx, hfx⟩

/-- A successful `Except`-`mapM` output has the input's length. -/
theorem exceptMapM_ok_length {ε α β : Type} (f : α → Except ε β) :
    ∀ {l : List α} {out : List β}, l.mapM f = .ok out → out.length = l.length := by
  intro l
  induction l with
  | nil =>
    intro out h
    simp only [List.mapM_nil, pure, Except.pure, Except.ok.injEq] at h
    subst h
    rfl
  | cons a l ih =>
    intro out h
    rw [List.mapM_cons] at h
    cases ha : f a with
    | error e =>
      rw [ha] at h
      simp only [bind, Except.bind] at h
      exact Except.noConfusion h
    | ok b =>
      rw [ha] at h
      cases hl : l.mapM f with
      | error e =>
        rw [hl] at h
        simp [Except.bind, bind, pure, Except.pure] at h
      | ok bs =>
        rw [hl] at h
        simp only [Except.bind, bind, pure, Except.pure, Except.ok.injEq] at h
        subst h
        simp [ih hl]

/-- Pointwise success gives `Except`-`mapM` success with the mapped output. -/
theorem exceptMapM_ok_of_forall {ε α β : Type} (f : α → Except ε β) (g : α → β) :
    ∀ {l : List α}, (∀ x ∈ l, f x = .ok (g x)) → l.mapM f = .ok (l.map g) := by
  intro l
  induction l with
  | nil => intro _; rfl
  | cons a l ih =>
    intro h
    rw [List.mapM_cons, h a (List.mem_cons_self a l),
      ih (fun x hx => h x (List.mem_cons_of_mem a hx))]
    rfl

/-- Every element of a successful `Option`-`mapM` output comes from a
successful application on some input element. -/
theorem optionMapM_some_forall {α β : Type} (f : α → Option β) :
    ∀ {l : List α} {out : List β}, l.mapM f = some out →
      ∀ y ∈ out, ∃ x ∈ l, f x = some y := by
  intro l
  induction l with
  | nil =>
    intro out h y hy
    simp only [List.mapM_nil, pure, Option.some.injEq] at h
    subst h
    exact absurd hy (List.not_mem_nil y)
  | cons a l ih =>
    intro out h y hy
    rw [List.mapM_cons] at h
    cases ha : f a with
    | none => rw [ha] at h; simp [Option.bind] at h
    | some b =>
      rw [ha] at h
      cases hl : l.mapM f with
      | none =>
        rw [hl] at h
        simp [Option.bind, bind, pure] at h
      | some bs =>
        rw [hl] at h
        simp only [Option.bind, bind, pure, Option.some.injEq] at h
        subst h
        rcases List.mem_cons.mp hy with rfl | hy'
        · exact ⟨a, List.mem_cons_self a l, ha⟩
        · obtain ⟨x, hx, hfx⟩ := ih hl y hy'
          exact ⟨x, List.mem_cons_of_mem a hx, hfx⟩

/-- A successful `Option`-`mapM` output has the input's length. -/
theorem optionMapM_some_length {α β : Type} (f : α → Option β) :
    ∀ {l : List α} {out : List β}, l.mapM f = some out → out.length = l.length := by
  intro l
  induction l with
  | nil =>
    intro out h
    simp only [List.mapM_nil, pure, Option.some.injEq] at h
    subst h
    rfl
  | cons a l ih =>
    intro out h
    rw [List.mapM_cons] at h
    cases ha : f a with
    | none => rw [ha] at h; simp [Option.bind] at h
    | some b =>
      rw [ha] at h
      cases hl : l.mapM f with
      | none =>
        rw [hl] at h
        simp [Option.bind, bind, pure] at h
      | some bs =>
        rw [hl] at h
        simp only [Option.bind, bind, pure, Option.some.injEq] at h
        subst h
        simp [ih hl]

/-- Pointwise success gives `Option`-`mapM` success with the mapped output. -/
theorem optionMapM_some_of_forall {α β : Type} (f : α → Option β) (g : α → β) :
    ∀ {l : List α}, (∀ x ∈ l, f x = some (g x)) → l.mapM f = some (l.map g) := by
  intro l
  induction l with
  | nil => intro _; rfl
  | cons a l ih =>
    intro h
    rw [List.mapM_cons, h a (List.mem_cons_self a l),
      ih (fun x hx => h x (List.mem_cons_of_mem a hx))]
    rfl

/-! ## What a successful parse guarantees -/

/-- A row accepted by `parseRow` has exactly `expected_P` cells, all in
`{0,1}`, summing to at least `1`. -/
theorem parseRow_ok_valid (rows : List Str) (P t : Nat) (nums : List Int)
    (h : parseRow rows P t = .ok nums) :
    nums.length = P ∧ (∀ v ∈ nums, v = 0 ∨ v = 1) ∧ 1 ≤ nums.sum := by
  unfold parseRow at h
  split at h
  · exact Except.noConfusion h
  · simp only at h
    split at h
    · exact Except.noConfusion h
    · split at h
      · exact Except.noConfusion h
      · split at h
        · exact Except.noConfusion h
        · split at h
          · exact Except.noConfusion h
          · split at h
            · exact Except.noConfusion h
            · split at h
              · exact Except.noConfusion h
              · split at h
                · exact Except.noConfusion h
                · rename_i hlen hbin hsum
                  cases h
                  refine ⟨by omega, ?_, ?_⟩
                  · intro v hv
                    by_contra hcon
                    push_neg at hcon
                    apply hbin
                    rw [List.any_eq_true]
                    refine ⟨v, hv, ?_⟩
                    simp [hcon.1, hcon.2]
                  · have hpos : 0 ≤ nums.sum := by
                      apply List.sum_nonneg
                      intro x hx
                      by_contra hneg
                      push_neg at hneg
                      apply hbin
                      rw [List.any_eq_true]
                      refine ⟨x, hx, ?_⟩
                      have h0 : x ≠ 0 := by omega
                      have h1 : x ≠ 1 := by omega
                      simp [h0, h1]
                    omega

/-- A block accepted by `parseBlock` has `expected_T` rows, each with
`expected_P` binary cells summing to at least `1`. -/
theorem parseBlock_ok_valid (lines : List Str) (blockPred : Str → Bool)
    (P T : Nat) (W : List (List Int))
    (h : parseBlock lines blockPred P T = .ok W) :
    W.length = T ∧ ∀ r ∈ W, r.length = P ∧ (∀ v ∈ r, v = 0 ∨ v = 1) ∧ 1 ≤ r.sum := by
  unfold parseBlock at h
  split at h
  · exact Except.noConfusion h
  · split at h
    · exact Except.noConfusion h
    · split at h
      · exact Except.noConfusion h
      · constructor
        · rw [exceptMapM_ok_length _ h]
          exact List.length_range T
        · intro r hr
          obtain ⟨t, _, hrow⟩ := exceptMapM_ok_forall _ h r hr
          exact parseRow_ok_valid _ P t r hrow

/-- A dictionary returned by `parse_petri_from_text` is fully validated:
correct dimensions, marking of length `expected_P` with every value in
`[0, max_tokens]`, and two `expected_T × expected_P` binary matrices whose
rows sum to at least `1`. -/
theorem parse_ok_valid (text : Str) (P T : Nat) (mx : Int) (d : NetDict)
    (h : parse_petri_from_text text P T mx = .ok d) :
    d.num_places = P ∧ d.num_transitions = T ∧
    d.marking.length = P ∧ (∀ v ∈ d.marking, 0 ≤ v ∧ v ≤ mx) ∧
    d.W_in.length = T ∧
    (∀ r ∈ d.W_in, r.length = P ∧ (∀ v ∈ r, v = 0 ∨ v = 1) ∧ 1 ≤ r.sum) ∧
    d.W_out.length = T ∧
    (∀ r ∈ d.W_out, r.length = P ∧ (∀ v ∈ r, v = 0 ∨ v = 1) ∧ 1 ≤ r.sum) := by
  unfold parse_petri_from_text at h
  simp only at h
  split at h
  · exact Except.noConfusion h
  · split at h
    · exact Except.noConfusion h
    · split at h
      · exact Except.noConfusion h
      · split at h
        · exact Except.noConfusion h
        · rename_i marking_vals hmark
          split at h
          · exact Except.noConfusion h
          · rename_i hlen
            split at h
            · exact Except.noConfusion h
            · rename_i hrange
              split at h
              · exact Except.noConfusion h
              · rename_i Win hwin
                split at h
                · exact Except.noConfusion h
                · rename_i Wout hwout
                  cases h
                  dsimp only
                  obtain ⟨hwinlen, hwinrows⟩ := parseBlock_ok_valid _ _ _ _ _ hwin
                  obtain ⟨hwoutlen, hwoutrows⟩ := parseBlock_ok_valid _ _ _ _ _ hwout
                  refine ⟨rfl, rfl, by omega, ?_, hwinlen, hwinrows, hwoutlen,
                    hwoutrows⟩
                  intro v hv
                  by_contra hcon
                  push_neg at hcon
                  apply hrange
                  rw [List.any_eq_true]
                  refine ⟨v, hv, ?_⟩
                  rcases lt_or_le v 0 with hneg | hpos
                  · simp [hneg]
                  · have hmx : mx < v := hcon hpos
                    simp [hmx]


/-- A non-empty production fold yields a marking of length `P`. -/
theorem produce_fold_length (W : List (List Int)) (P : Nat) :
    ∀ (ts : List Nat) (M : List Int), ts ≠ [] →
      (ts.foldl (fun M t => (List.range P).map fun i =>
        min MAX_TOKENS (Mget M i + Wget W t i)) M).length = P := by
  intro ts
  induction ts with
  | nil => intro M hne; exact absurd rfl hne
  | cons t ts ih =>
    intro M _
    cases ts with
    | nil => simp
    | cons a l =>
      rw [List.foldl_cons]
      exact ih _ (List.cons_ne_nil a l)

/-- **C4 (marking-bounds invariant).**  Every operation producing or
mutating a marking keeps each place value in `[0, MAX_TOKENS]`:
`generate_random_marking` establishes the bounds, `parse_petri_from_text`
accepts only markings satisfying them, and `step` (via `fire_transitions`)
preserves them — subtraction never drives a place below `0`, production is
clamped at `MAX_TOKENS`. -/
theorem marking_bounds_invariant :
    (∀ (s : PetriNetModel) (draws : List Nat),
      BoundedMarking (s.generate_random_marking draws).M) ∧
    (∀ (text : Str) (P T : Nat) (d : NetDict),
      parse_petri_from_text text P T MAX_TOKENS = .ok d →
      BoundedMarking d.marking) ∧
    (∀ (s : PetriNetModel) (rand : List Nat),
      BinaryMatrix s.W_in → BinaryMatrix s.W_out → BoundedMarking s.M →
      BoundedMarking (s.step rand).2.M) := by
  refine ⟨?_, ?_, ?_⟩
  · intro s draws v hv
    simp only [PetriNetModel.generate_random_marking] at hv
    rw [List.mem_map] at hv
    obtain ⟨i, _, rfl⟩ := hv
    unfold pyRandint MAX_TOKENS
    have h4 : ((3 : Int) - 0 + 1).toNat = 4 := by decide
    rw [h4]
    have hlt : draws.getD i 0 % 4 < 4 := Nat.mod_lt _ (by norm_num)
    constructor
    · positivity
    · omega
  · intro text P T d h v hv
    exact (parse_ok_valid text P T MAX_TOKENS d h).2.2.2.1 v hv
  · intro s rand hbin_in hbin_out hM
    by_cases he : s.enabled_transitions = []
    · simpa [PetriNetModel.step, he] using hM
    · rw [step_eq_of_enabled s rand he]
      have hcheck := step_check_true s rand hbin_in hM.nonneg
      have hne : s.select_loop s.enabled_transitions rand ≠ [] :=
        (select_loop_spec s rand).2.2.2.2 he
      have hout : ∀ t p', 0 ≤ Wget s.W_out t p' := by
        intro t p'
        rcases hbin_out.wget t p' with h | h <;> simp [h]
      simp only [PetriNetModel.fire_transitions, hcheck, if_true]
      intro v hv
      obtain ⟨p, hpl, rfl⟩ := List.mem_iff_getElem.mp hv
      have hp : p < s.P := by
        rw [produce_fold_length s.W_out s.P _ _ hne] at hpl
        exact hpl
      have hval : ∀ (L : List Int) (hL : p < L.length), L[p] = Mget L p := by
        intro L hL
        unfold Mget
        rw [List.getD_eq_getElem _ _ hL]
      rw [hval _ hpl, produce_fold s.W_out s.P _ _ p hne hp hout,
        consume_fold s.W_in s.P _ _ p hp]
      have hreq := step_required_le s rand hbin_in hM.nonneg p hp
      have hprod : 0 ≤ ((s.select_loop s.enabled_transitions rand).map
          fun t => Wget s.W_out t p).sum :=
        List.sum_nonneg (by
          intro x hx
          rw [List.mem_map] at hx
          obtain ⟨u, _, rfl⟩ := hx
          exact hout u p)
      have hMp := hM.mget_bounds p
      simp only [MAX_TOKENS] at *
      omega

/-- The dictionary of the §8 scenario net (`to_dict` of `exNet`). -/
def exNetDict : NetDict :=
  { num_places := 2, num_transitions := 1, marking := [1, 0],
    W_in := [[1, 0]], W_out := [[0, 1]] }

/-- A dimension-compatible dictionary used by the `from_dict` witness. -/
def exNetDictB : NetDict :=
  { num_places := 2, num_transitions := 1, marking := [0, 0],
    W_in := [[1, 1]], W_out := [[1, 1]] }

/-- Witness for C4: concrete instances of all three parts on the §8 net. -/
theorem marking_bounds_invariant_witness :
    BoundedMarking (exNet.generate_random_marking [7, 2]).M ∧
    (parse_petri_from_text (format_petri_to_text exNet) 2 1 MAX_TOKENS =
      .ok exNetDict) ∧
    BoundedMarking exNetDict.marking ∧
    BinaryMatrix exNet.W_in ∧ BinaryMatrix exNet.W_out ∧
    BoundedMarking exNet.M ∧ BoundedMarking (exNet.step [0]).2.M :=
  ⟨marking_bounds_invariant.1 exNet [7, 2], by decide,
    marking_bounds_invariant.2.1 (format_petri_to_text exNet) 2 1 exNetDict
      (by decide),
    by decide, by decide, by decide,
    marking_bounds_invariant.2.2 exNet [0] (by decide) (by decide) (by decide)⟩

/-! ## Validation on the construction paths (C8) -/

/-- A generated row (`generate_random_net`'s per-row work) has `P` binary
cells and, thanks to the self-repair of all-zero rows, sums to at least `1`
whenever `P ≥ 1`. -/
theorem gen_row_valid (P : Nat) (draws : List Nat) (fix : Nat) (hP : 1 ≤ P) :
    (gen_row P draws fix).length = P ∧
    (∀ v ∈ gen_row P draws fix, v = 0 ∨ v = 1) ∧
    1 ≤ (gen_row P draws fix).sum := by
  have hdef : gen_row P draws fix =
      (if ((List.range P).map fun i => pyChoice01 (draws.getD i 0)).sum = 0 then
        ((List.range P).map fun i => pyChoice01 (draws.getD i 0)).set (fix % P) 1
      else (List.range P).map fun i => pyChoice01 (draws.getD i 0)) := rfl
  set row : List Int := (List.range P).map fun i => pyChoice01 (draws.getD i 0)
    with hrowdef
  have hrowlen : row.length = P := by simp [hrowdef]
  have hrowbin : ∀ v ∈ row, v = 0 ∨ v = 1 := by
    intro v hv
    rw [hrowdef, List.mem_map] at hv
    obtain ⟨i, _, rfl⟩ := hv
    unfold pyChoice01
    split
    · left; rfl
    · right; rfl
  rw [hdef]
  by_cases hz : row.sum = 0
  · rw [if_pos hz]
    have hidx : fix % P < row.length := by
      rw [hrowlen]
      exact Nat.mod_lt _ (by omega)
    have hsetbin : ∀ v ∈ row.set (fix % P) 1, v = 0 ∨ v = 1 := by
      intro v hv
      rcases List.mem_or_eq_of_mem_set hv with hv' | rfl
      · exact hrowbin v hv'
      · right; rfl
    refine ⟨by simp [hrowlen], hsetbin, ?_⟩
    have hmem1 : (1 : Int) ∈ row.set (fix % P) 1 := by
      have hidx' : fix % P < (row.set (fix % P) 1).length := by simpa using hidx
      have hmem := List.getElem_mem hidx'
      have hval : (row.set (fix % P) 1)[fix % P] = 1 := List.getElem_set_self _
      rwa [hval] at hmem
    have hnonneg : ∀ v ∈ row.set (fix % P) 1, 0 ≤ v := by
      intro v hv
      rcases hsetbin v hv with h | h <;> simp [h]
    exact List.single_le_sum hnonneg 1 hmem1
  · rw [if_neg hz]
    have hnonneg : ∀ v ∈ row, 0 ≤ v := by
      intro v hv
      rcases hrowbin v hv with h | h <;> simp [h]
    have := List.sum_nonneg hnonneg
    exact ⟨hrowlen, hrowbin, by omega⟩

/-- `from_dict` succeeds exactly when the dictionary's dimensions match the
live instance's; the matrix contents are never inspected. -/
theorem from_dict_dims_iff (s : PetriNetModel) (data : NetDict) :
    (s.from_dict data).isSome = true ↔
      data.num_places = s.P ∧ data.num_transitions = s.T := by
  unfold PetriNetModel.from_dict
  by_cases hc : data.num_places ≠ s.P ∨ data.num_transitions ≠ s.T
  · rw [if_pos hc]
    simp only [Option.isSome_none, Bool.false_eq_true, false_iff]
    intro hcon
    rcases hc with h | h
    · exact h hcon.1
    · exact h hcon.2
  · rw [if_neg hc]
    push_neg at hc
    simp [hc.1, hc.2]

/-- **C8 counterexample.**  `from_dict` accepts a dictionary whose matrix
cell `W_in[0][0] = 5` is neither `0` nor `1` (the claimed `StructureError`
is never raised), and likewise accepts a `W_in` matrix whose single row has
three cells against `P = 1`. -/
theorem from_dict_accepts_invalid :
    ((PetriNetModel.init 1 1).from_dict
        { num_places := 1, num_transitions := 1, marking := [0],
          W_in := [[5]], W_out := [[1]] }).isSome = true ∧
    ¬ BinaryMatrix [[(5 : Int)]] ∧
    ((PetriNetModel.init 1 1).from_dict
        { num_places := 1, num_transitions := 1, marking := [0],
          W_in := [[0, 1, 1]], W_out := [[1]] }).isSome = true :=
  ⟨by decide, by decide, by decide⟩

/-- **C8 amended.**  What the construction paths actually validate: the text
parse fully validates dimensions, binary cells and row sums; `from_dict`
checks only that the dictionary's `(num_places, num_transitions)` match the
live `(P, T)` and accepts the matrices unvalidated; `generate_random_net`
establishes binary cells and row sums `≥ 1` by construction (self-repair)
and raises nothing; `__init__` builds all-zero matrices (row sums `0`)
without any check. -/
theorem construction_validation_actual :
    (∀ (text : Str) (P T : Nat) (mx : Int) (d : NetDict),
      parse_petri_from_text text P T mx = .ok d →
      d.W_in.length = T ∧
      (∀ r ∈ d.W_in, r.length = P ∧ (∀ v ∈ r, v = 0 ∨ v = 1) ∧ 1 ≤ r.sum) ∧
      d.W_out.length = T ∧
      (∀ r ∈ d.W_out, r.length = P ∧ (∀ v ∈ r, v = 0 ∨ v = 1) ∧ 1 ≤ r.sum)) ∧
    (∀ (s : PetriNetModel) (data : NetDict),
      (s.from_dict data).isSome = true ↔
        data.num_places = s.P ∧ data.num_transitions = s.T) ∧
    (∀ (s : PetriNetModel) (din dout : Nat → List Nat) (fin' fout : Nat → Nat),
      1 ≤ s.P →
      (BinaryMatrix (s.generate_random_net din dout fin' fout).W_in ∧
        ∀ r ∈ (s.generate_random_net din dout fin' fout).W_in, 1 ≤ r.sum) ∧
      (BinaryMatrix (s.generate_random_net din dout fin' fout).W_out ∧
        ∀ r ∈ (s.generate_random_net din dout fin' fout).W_out, 1 ≤ r.sum)) ∧
    (∀ P T : Nat,
      (PetriNetModel.init P T).W_in = List.replicate T (List.replicate P 0) ∧
      (PetriNetModel.init P T).W_out = List.replicate T (List.replicate P 0)) := by
  refine ⟨?_, from_dict_dims_iff, ?_, fun P T => ⟨rfl, rfl⟩⟩
  · intro text P T mx d h
    obtain ⟨_, _, _, _, h5, h6, h7, h8⟩ := parse_ok_valid text P T mx d h
    exact ⟨h5, h6, h7, h8⟩
  · intro s din dout fin' fout hP
    have hgen : ∀ (d : Nat → List Nat) (f : Nat → Nat),
        BinaryMatrix ((List.range s.T).map fun j => gen_row s.P (d j) (f j)) ∧
        ∀ r ∈ (List.range s.T).map fun j => gen_row s.P (d j) (f j), 1 ≤ r.sum := by
      intro d f
      constructor
      · intro r hr
        rw [List.mem_map] at hr
        obtain ⟨j, _, rfl⟩ := hr
        exact (gen_row_valid s.P (d j) (f j) hP).2.1
      · intro r hr
        rw [List.mem_map] at hr
        obtain ⟨j, _, rfl⟩ := hr
        exact (gen_row_valid s.P (d j) (f j) hP).2.2
    exact ⟨hgen din fin', hgen dout fout⟩

/-- Witness for C8's amended claim: concrete instances of each part. -/
theorem construction_validation_actual_witness :
    (parse_petri_from_text (format_petri_to_text exNet) 2 1 3 =
      .ok exNetDict) ∧
    ([[(1 : Int), 0]].length = 1 ∧
      (∀ r ∈ [[(1 : Int), 0]], r.length = 2 ∧ (∀ v ∈ r, v = 0 ∨ v = 1) ∧
        1 ≤ r.sum) ∧
      [[(0 : Int), 1]].length = 1 ∧
      (∀ r ∈ [[(0 : Int), 1]], r.length = 2 ∧ (∀ v ∈ r, v = 0 ∨ v = 1) ∧
        1 ≤ r.sum)) ∧
    ((exNet.from_dict exNetDictB).isSome = true ↔
      (exNetDictB.num_places = exNet.P ∧ exNetDictB.num_transitions = exNet.T)) ∧
    (1 ≤ exNet.P) ∧
    BinaryMatrix (exNet.generate_random_net (fun _ => []) (fun _ => [])
      (fun _ => 0) (fun _ => 0)).W_in :=
  ⟨by decide,
    construction_validation_actual.1 (format_petri_to_text exNet) 2 1 3
      exNetDict (by decide),
    construction_validation_actual.2.1 exNet exNetDictB,
    by decide,
    (construction_validation_actual.2.2.1 exNet (fun _ => []) (fun _ => [])
      (fun _ => 0) (fun _ => 0) (by decide)).1.1⟩

/-- **C9 (parse failure on truncated input).**  On the text
`"M: 0\nW_in:\nx\n"` with `expected_P = expected_T = 1`, the `W_in` block
is truncated by exactly one row; the guard
`rows_start + expected_T > len(lines) + 1` (off by one) lets the loop read
`lines[rows_start + 0]` past the end, so the source raises an uncaught
`IndexError` instead of the promised descriptive `ValueError`. -/
theorem parse_truncated_block_index_error :
    parse_petri_from_text
      ['M', ':', ' ', '0', '\n', 'W', '_', 'i', 'n', ':', '\n', 'x', '\n']
      1 1 3 = .error .indexError := by decide

/-! ## Character and string lemmas for the round-trip proof -/

/-- The ten decimal digit characters. -/
def digitList : Str := ['0', '1', '2', '3', '4', '5', '6', '7', '8', '9']

theorem digitChar_mem_digits (d : Nat) : digitChar d ∈ digitList := by
  unfold digitChar digitList
  rcases Nat.lt_or_ge d 10 with h | h
  · interval_cases d <;> decide
  · rw [List.getD_eq_default _ _ (by simpa using h)]
    decide

theorem natToStrAux_subset :
    ∀ (fuel n : Nat), ∀ c ∈ natToStrAux fuel n, c ∈ digitList := by
  intro fuel
  induction fuel with
  | zero => intro n c hc; exact absurd hc (List.not_mem_nil c)
  | succ fuel ih =>
    intro n c hc
    unfold natToStrAux at hc
    split at hc
    · rw [List.mem_singleton] at hc
      rw [hc]
      exact digitChar_mem_digits n
    · rw [List.mem_append] at hc
      rcases hc with hc | hc
      · exact ih _ c hc
      · rw [List.mem_singleton] at hc
        rw [hc]
        exact digitChar_mem_digits _

theorem natToStr_subset (n : Nat) : ∀ c ∈ natToStr n, c ∈ digitList :=
  natToStrAux_subset (n + 1) n

theorem natToStr_ne_nil (n : Nat) : natToStr n ≠ [] := by
  unfold natToStr natToStrAux
  split
  · exact List.cons_ne_nil _ _
  · exact List.append_ne_nil_of_right_ne_nil _ (List.cons_ne_nil _ _)

/-- Digits are not whitespace, are lowercase-invariant, and are neither
newline, colon, nor minus. -/
theorem digit_char_props : ∀ c ∈ digitList,
    pyIsSpace c = false ∧ pyToLower c = c ∧ c ≠ '\n' ∧ c ≠ ':' := by decide

theorem intToStr_nonneg (v : Int) (h : 0 ≤ v) : intToStr v = natToStr v.toNat :=
  if_neg (not_lt.mpr h)

theorem intToStr_subset (v : Int) (h : 0 ≤ v) :
    ∀ c ∈ intToStr v, c ∈ digitList := by
  rw [intToStr_nonneg v h]
  exact natToStr_subset _

theorem intToStr_ne_nil (v : Int) (h : 0 ≤ v) : intToStr v ≠ [] := by
  rw [intToStr_nonneg v h]
  exact natToStr_ne_nil _

/-! ### `joinSep` -/

theorem joinSep_cons₂ (sep : Char) (a b : Str) (t : List Str) :
    joinSep sep (a :: b :: t) = a ++ sep :: joinSep sep (b :: t) := rfl

theorem joinSep_ne_nil (sep : Char) :
    ∀ (L : List Str), L ≠ [] → (∀ l ∈ L, l ≠ []) → joinSep sep L ≠ [] := by
  intro L
  match L with
  | [] => intro h _; exact absurd rfl h
  | [l] => intro _ hl; exact hl l (List.mem_singleton_self l)
  | l :: m :: t =>
    intro _ hl
    rw [joinSep_cons₂]
    intro hcon
    rcases List.append_eq_nil.mp hcon with ⟨_, h2⟩
    exact List.cons_ne_nil _ _ h2

theorem mem_joinSep (sep : Char) :
    ∀ (L : List Str) (c : Char), c ∈ joinSep sep L → c = sep ∨ ∃ t ∈ L, c ∈ t := by
  intro L
  match L with
  | [] => intro c hc; exact absurd hc (List.not_mem_nil c)
  | [l] => intro c hc; exact Or.inr ⟨l, List.mem_singleton_self l, hc⟩
  | l :: m :: t =>
    intro c hc
    rw [joinSep_cons₂, List.mem_append] at hc
    rcases hc with hc | hc
    · exact Or.inr ⟨l, List.mem_cons_self _ _, hc⟩
    · rcases List.mem_cons.mp hc with rfl | hc
      · exact Or.inl rfl
      · rcases mem_joinSep sep (m :: t) c hc with h | ⟨u, hu, hcu⟩
        · exact Or.inl h
        · exact Or.inr ⟨u, List.mem_cons_of_mem _ hu, hcu⟩

theorem joinSep_head (sep : Char) (c : Char) (t : Str) (rest : List Str) :
    ∃ X, joinSep sep ((c :: t) :: rest) = c :: X := by
  cases rest with
  | nil => exact ⟨t, rfl⟩
  | cons m r => exact ⟨t ++ sep :: joinSep sep (m :: r), rfl⟩

theorem joinSep_getLast_nonspace (sep : Char) :
    ∀ (L : List Str), L ≠ [] → (∀ l ∈ L, l ≠ []) →
      (∀ l ∈ L, ∀ c ∈ l, pyIsSpace c = false) →
      ∀ c, (joinSep sep L).getLast? = some c → pyIsSpace c = false := by
  intro L
  match L with
  | [] => intro h _ _ _ _; exact absurd rfl h
  | [l] =>
    intro _ hne hns c hc
    exact hns l (List.mem_singleton_self l) c (List.mem_of_mem_getLast? hc)
  | l :: m :: t =>
    intro _ hne hns c hc
    have hjoin_ne : joinSep sep (m :: t) ≠ [] := by
      apply joinSep_ne_nil sep (m :: t) (List.cons_ne_nil m t)
      intro x hx
      exact hne x (List.mem_cons_of_mem l hx)
    rw [joinSep_cons₂,
      List.getLast?_append_of_ne_nil l (List.cons_ne_nil sep _)] at hc
    have hstep : (sep :: joinSep sep (m :: t)).getLast? =
        (joinSep sep (m :: t)).getLast? := by
      cases hj : joinSep sep (m :: t) with
      | nil => exact absurd hj hjoin_ne
      | cons a r => rw [List.getLast?_cons_cons]
    rw [hstep] at hc
    exact joinSep_getLast_nonspace sep (m :: t) (List.cons_ne_nil m t)
      (fun x hx => hne x (List.mem_cons_of_mem l hx))
      (fun x hx => hns x (List.mem_cons_of_mem l hx)) c hc

/-! ### strip / lower / startswith evaluation lemmas -/

theorem pyLstrip_cons_of (c : Char) (l : Str) (h : pyIsSpace c = false) :
    pyLstrip (c :: l) = c :: l := by
  simp [pyLstrip, List.dropWhile_cons, h]

theorem pyRstrip_eq_self (l : Str)
    (h : ∀ c, l.getLast? = some c → pyIsSpace c = false) : pyRstrip l = l := by
  unfold pyRstrip
  cases hr : l.reverse with
  | nil =>
    have : l = [] := List.reverse_eq_nil_iff.mp hr
    rw [this]
    rfl
  | cons c rest =>
    have hlast : l.getLast? = some c := by
      rw [List.getLast?_eq_head?_reverse, hr]
      rfl
    rw [List.dropWhile_cons_of_neg (by simp [h c hlast]), ← hr,
      List.reverse_reverse]

theorem pyStrip_eq_self (l : Str)
    (hhead : ∀ c, l.head? = some c → pyIsSpace c = false)
    (hlast : ∀ c, l.getLast? = some c → pyIsSpace c = false) :
    pyStrip l = l := by
  unfold pyStrip
  rw [pyRstrip_eq_self l hlast]
  cases l with
  | nil => rfl
  | cons c rest => exact pyLstrip_cons_of c rest (hhead c rfl)

theorem pyLower_cons (c : Char) (l : Str) :
    pyLower (c :: l) = pyToLower c :: pyLower l := rfl

theorem pyLower_eq_self (l : Str) (h : ∀ c ∈ l, pyToLower c = c) :
    pyLower l = l := by
  induction l with
  | nil => rfl
  | cons c rest ih =>
    rw [pyLower_cons, h c (List.mem_cons_self c rest),
      ih fun x hx => h x (List.mem_cons_of_mem c hx)]

theorem pyStartswith_ne (a b : Char) (h : ¬ a = b) (pat rest : Str) :
    pyStartswith (a :: pat) (b :: rest) = false := by
  simp [pyStartswith, h]

/-! ### splitlines -/

theorem pySplitlinesAux_append_nl (l : Str) (hnl : '\n' ∉ l) :
    ∀ (rest acc : Str),
      pySplitlinesAux (l ++ '\n' :: rest) acc =
        (acc.reverse ++ l) :: pySplitlinesAux rest [] := by
  induction l with
  | nil =>
    intro rest acc
    simp [pySplitlinesAux]
  | cons c l ih =>
    intro rest acc
    have hc : ¬ c = '\n' := fun h => hnl (by rw [h]; exact List.mem_cons_self _ _)
    have hl : '\n' ∉ l := fun h => hnl (List.mem_cons_of_mem c h)
    simp only [List.cons_append, pySplitlinesAux, if_neg hc, List.append_eq]
    rw [ih hl rest (c :: acc)]
    simp

theorem pySplitlines_join :
    ∀ (L : List Str), L ≠ [] → (∀ l ∈ L, '\n' ∉ l) →
      pySplitlines (joinSep '\n' L ++ ['\n']) = L := by
  intro L
  match L with
  | [] => intro h _; exact absurd rfl h
  | [l] =>
    intro _ hnl
    unfold pySplitlines
    rw [show joinSep '\n' [l] = l from rfl,
      pySplitlinesAux_append_nl l (hnl l (List.mem_singleton_self l)) [] []]
    rfl
  | l :: m :: t =>
    intro _ hnl
    unfold pySplitlines
    rw [joinSep_cons₂, List.append_assoc, List.cons_append,
      pySplitlinesAux_append_nl l (hnl l (List.mem_cons_self _ _)) _ []]
    have := pySplitlines_join (m :: t) (List.cons_ne_nil m t)
      (fun x hx => hnl x (List.mem_cons_of_mem l hx))
    unfold pySplitlines at this
    rw [this]
    rfl

/-! ### whitespace split -/

theorem pySplitAux_token (t : Str) (hns : ∀ c ∈ t, pyIsSpace c = false) :
    ∀ (r acc : Str), pySplitAux (t ++ r) acc = pySplitAux r (t.reverse ++ acc) := by
  induction t with
  | nil => intro r acc; rfl
  | cons c t ih =>
    intro r acc
    simp only [List.cons_append, pySplitAux,
      hns c (List.mem_cons_self c t), Bool.false_eq_true, if_false,
      List.append_eq]
    rw [ih (fun x hx => hns x (List.mem_cons_of_mem c hx)) r (c :: acc)]
    simp

theorem pySplitAux_join (tokens : List Str) (hne : ∀ t ∈ tokens, t ≠ [])
    (hns : ∀ t ∈ tokens, ∀ c ∈ t, pyIsSpace c = false) :
    pySplitAux (joinSep ' ' tokens) [] = tokens := by
  match tokens with
  | [] => rfl
  | [t] =>
    have htok := pySplitAux_token t (hns t (List.mem_singleton_self t)) [] []
    rw [List.append_nil, List.append_nil] at htok
    rw [show joinSep ' ' [t] = t from rfl, htok]
    have hrev : t.reverse ≠ [] := by
      simpa using hne t (List.mem_singleton_self t)
    simp only [pySplitAux]
    rw [if_neg (by simpa [List.isEmpty_iff] using hrev), List.reverse_reverse]
  | t :: m :: rest =>
    have htok := pySplitAux_token t (hns t (List.mem_cons_self _ _))
      (' ' :: joinSep ' ' (m :: rest)) []
    rw [List.append_nil] at htok
    rw [joinSep_cons₂, htok]
    have hrev : t.reverse ≠ [] := by
      simpa using hne t (List.mem_cons_self _ _)
    have hrec := pySplitAux_join (m :: rest)
      (fun x hx => hne x (List.mem_cons_of_mem t hx))
      (fun x hx => hns x (List.mem_cons_of_mem t hx))
    simp only [pySplitAux]
    rw [if_pos (by decide), if_neg (by simpa [List.isEmpty_iff] using hrev),
      List.reverse_reverse, hrec]

theorem pySplit_space_cons (s : Str) : pySplitAux (' ' :: s) [] = pySplitAux s [] := by
  simp only [pySplitAux]
  rw [if_pos (by decide)]
  simp

/-! ### colon splitting and small-integer parsing -/

theorem splitFirstColon_append (a b : Str) (h : ':' ∉ a) :
    splitFirstColon (a ++ ':' :: b) = some (a, b) := by
  induction a with
  | nil => simp [splitFirstColon]
  | cons c a ih =>
    have hc : ¬ c = ':' := fun hcc => h (by rw [hcc]; exact List.mem_cons_self _ _)
    simp only [List.cons_append, splitFirstColon, if_neg hc, List.append_eq]
    rw [ih fun hx => h (List.mem_cons_of_mem c hx)]

theorem pyInt_intToStr_small (v : Int) (h0 : 0 ≤ v) (h3 : v ≤ 3) :
    pyInt (intToStr v) = some v := by
  interval_cases v <;> decide

theorem mapM_pyInt_map_intToStr (M : List Int)
    (h : ∀ v ∈ M, 0 ≤ v ∧ v ≤ 3) :
    (M.map intToStr).mapM pyInt = some M := by
  induction M with
  | nil => rfl
  | cons v M ih =>
    rw [List.map_cons, List.mapM_cons,
      pyInt_intToStr_small v (h v (List.mem_cons_self v M)).1
        (h v (List.mem_cons_self v M)).2,
      ih fun x hx => h x (List.mem_cons_of_mem v hx)]
    rfl

/-! ### Shape of the formatted lines -/

/-- `rstrip` fixes a prefix followed by a non-empty whitespace-free joined
token list (all format lines end this way). -/
theorem pyRstrip_append_join (pre : Str) (tokens : List Str)
    (hne : tokens ≠ []) (htne : ∀ t ∈ tokens, t ≠ [])
    (hts : ∀ t ∈ tokens, ∀ c ∈ t, pyIsSpace c = false) :
    pyRstrip (pre ++ joinSep ' ' tokens) = pre ++ joinSep ' ' tokens := by
  apply pyRstrip_eq_self
  intro c hc
  rw [List.getLast?_append_of_ne_nil pre
    (joinSep_ne_nil ' ' tokens hne htne)] at hc
  exact joinSep_getLast_nonspace ' ' tokens hne htne hts c hc

/-- No newline occurs in a prefix-plus-joined-tokens line whose pieces are
newline-free. -/
theorem nl_not_mem_append_join (pre : Str) (tokens : List Str)
    (hpre : '\n' ∉ pre) (hts : ∀ t ∈ tokens, ∀ c ∈ t, c ≠ '\n') :
    '\n' ∉ pre ++ joinSep ' ' tokens := by
  intro h
  rcases List.mem_append.mp h with h | h
  · exact hpre h
  · rcases mem_joinSep ' ' tokens '\n' h with h | ⟨t, ht, hct⟩
    · exact absurd h.symm (by decide)
    · exact hts t ht '\n' hct rfl

/-- Facts about a list of all-digit tokens. -/
theorem digit_tokens_facts (tokens : List Str)
    (h : ∀ t ∈ tokens, ∀ c ∈ t, c ∈ digitList) :
    (∀ t ∈ tokens, ∀ c ∈ t, pyIsSpace c = false) ∧
    (∀ t ∈ tokens, ∀ c ∈ t, c ≠ '\n') ∧
    (∀ t ∈ tokens, ∀ c ∈ t, pyToLower c = c) ∧
    (∀ t ∈ tokens, ∀ c ∈ t, c ≠ ':') := by
  refine ⟨?_, ?_, ?_, ?_⟩ <;> intro t ht c hc
  · exact (digit_char_props c (h t ht c hc)).1
  · exact (digit_char_props c (h t ht c hc)).2.2.1
  · exact (digit_char_props c (h t ht c hc)).2.1
  · exact (digit_char_props c (h t ht c hc)).2.2.2

/-- The tokens of the marking line of a `[0, 3]`-bounded marking. -/
theorem marking_tokens_facts (M : List Int) (hM : ∀ v ∈ M, 0 ≤ v) :
    (∀ t ∈ M.map intToStr, t ≠ []) ∧
    (∀ t ∈ M.map intToStr, ∀ c ∈ t, c ∈ digitList) := by
  constructor <;> intro t ht <;> rw [List.mem_map] at ht <;>
    obtain ⟨v, hv, rfl⟩ := ht
  · exact intToStr_ne_nil v (hM v hv)
  · exact intToStr_subset v (hM v hv)

/-- A `pyStartswith` test on the strip-lower of a line with a known
non-matching head character evaluates to `false`. -/
theorem startswith_strip_lower_head (c : Char) (X : Str)
    (hc : pyIsSpace c = false)
    (hlast : ∀ d, (c :: X).getLast? = some d → pyIsSpace d = false)
    (a : Char) (pat : Str) (ha : ¬ a = pyToLower c) :
    pyStartswith (a :: pat) (pyLower (pyStrip (c :: X))) = false := by
  rw [pyStrip_eq_self _ (by intro d hd; cases hd; exact hc) hlast,
    pyLower_cons]
  exact pyStartswith_ne a (pyToLower c) ha pat (pyLower X)

/-- The marking line written as head character plus tail. -/
theorem marking_line_cons (M : List Int) :
    marking_line M = 'M' :: (':' :: ' ' :: joinSep ' ' (M.map intToStr)) := rfl

/-- A matrix row line split at its colon. -/
theorem matrix_row_line_split (W : List (List Int)) (P t : Nat) :
    matrix_row_line W P t =
      ('t' :: natToStr (t + 1)) ++
        (':' :: ' ' :: joinSep ' '
          (((List.range P).map fun p => Wget W t p).map intToStr)) := by
  unfold matrix_row_line
  rw [List.append_assoc]
  rfl

/-- A matrix row line written as head character plus tail. -/
theorem matrix_row_line_head (W : List (List Int)) (P t : Nat) :
    ∃ Y, matrix_row_line W P t = 't' :: Y := by
  rw [matrix_row_line_split]
  exact ⟨_, List.cons_append 't' _ _⟩

/-- `rstrip` fixes the marking line of a non-empty nonneg marking. -/
theorem marking_line_rstrip (M : List Int) (hMne : M ≠ [])
    (hM : ∀ v ∈ M, 0 ≤ v) :
    pyRstrip (marking_line M) = marking_line M := by
  obtain ⟨h1, h2⟩ := marking_tokens_facts M hM
  exact pyRstrip_append_join ['M', ':', ' '] (M.map intToStr)
    (by simpa using hMne) h1 (digit_tokens_facts _ h2).1

/-- `getLast?` of the marking line is a digit-class character. -/
theorem marking_line_last (M : List Int) (hMne : M ≠ [])
    (hM : ∀ v ∈ M, 0 ≤ v) :
    ∀ d, (marking_line M).getLast? = some d → pyIsSpace d = false := by
  obtain ⟨h1, h2⟩ := marking_tokens_facts M hM
  intro d hd
  unfold marking_line at hd
  rw [List.getLast?_append_of_ne_nil ['M', ':', ' ']
    (joinSep_ne_nil ' ' _ (by simpa using hMne) h1)] at hd
  exact joinSep_getLast_nonspace ' ' _ (by simpa using hMne) h1
    (digit_tokens_facts _ h2).1 d hd

/-- The cell tokens of a binary row are non-empty digit strings. -/
theorem cell_tokens_facts (W : List (List Int)) (P t : Nat)
    (hbin : ∀ p < P, Wget W t p = 0 ∨ Wget W t p = 1) :
    (∀ v ∈ (List.range P).map fun p => Wget W t p, 0 ≤ v ∧ v ≤ 3) ∧
    (∀ tk ∈ (((List.range P).map fun p => Wget W t p).map intToStr), tk ≠ []) ∧
    (∀ tk ∈ (((List.range P).map fun p => Wget W t p).map intToStr),
      ∀ c ∈ tk, c ∈ digitList) := by
  have hvals : ∀ v ∈ (List.range P).map fun p => Wget W t p, 0 ≤ v ∧ v ≤ 3 := by
    intro v hv
    rw [List.mem_map] at hv
    obtain ⟨p, hp, rfl⟩ := hv
    rw [List.mem_range] at hp
    rcases hbin p hp with h | h <;> rw [h] <;> norm_num
  refine ⟨hvals, ?_, ?_⟩ <;> intro tk htk <;> rw [List.mem_map] at htk <;>
    obtain ⟨v, hv, rfl⟩ := htk
  · exact intToStr_ne_nil v (hvals v hv).1
  · exact intToStr_subset v (hvals v hv).1

/-- `getLast?` of a matrix row line of a binary row with `P ≥ 1` is a digit. -/
theorem matrix_row_line_last (W : List (List Int)) (P t : Nat) (hP : 1 ≤ P)
    (hbin : ∀ p < P, Wget W t p = 0 ∨ Wget W t p = 1) :
    ∀ d, (matrix_row_line W P t).getLast? = some d → pyIsSpace d = false := by
  obtain ⟨_, h1, h2⟩ := cell_tokens_facts W P t hbin
  have hne : (((List.range P).map fun p => Wget W t p).map intToStr) ≠ [] := by
    simp only [ne_eq, List.map_eq_nil_iff, List.range_eq_nil]
    omega
  intro d hd
  rw [matrix_row_line_split] at hd
  have hjoin : (':' :: ' ' :: joinSep ' '
      (((List.range P).map fun p => Wget W t p).map intToStr)) ≠ [] :=
    List.cons_ne_nil _ _
  rw [List.getLast?_append_of_ne_nil ('t' :: natToStr (t + 1)) hjoin] at hd
  have hjne := joinSep_ne_nil ' ' _ hne h1
  have hstep : (':' :: ' ' :: joinSep ' '
      (((List.range P).map fun p => Wget W t p).map intToStr)).getLast? =
      (joinSep ' ' (((List.range P).map fun p => Wget W t p).map intToStr)).getLast? := by
    cases hj : joinSep ' ' (((List.range P).map fun p => Wget W t p).map intToStr) with
    | nil => exact absurd hj hjne
    | cons a r => rw [List.getLast?_cons_cons, List.getLast?_cons_cons]
  rw [hstep] at hd
  exact joinSep_getLast_nonspace ' ' _ hne h1 (digit_tokens_facts _ h2).1 d hd

/-- `rstrip` fixes a matrix row line of a binary row with `P ≥ 1`. -/
theorem matrix_row_line_rstrip (W : List (List Int)) (P t : Nat) (hP : 1 ≤ P)
    (hbin : ∀ p < P, Wget W t p = 0 ∨ Wget W t p = 1) :
    pyRstrip (matrix_row_line W P t) = matrix_row_line W P t :=
  pyRstrip_eq_self _ (matrix_row_line_last W P t hP hbin)

/-- The header tokens `p1 p2 ... pP`. -/
theorem header_tokens_facts (P : Nat) :
    (∀ tk ∈ (List.range P).map fun i => 'p' :: natToStr (i + 1), tk ≠ []) ∧
    (∀ tk ∈ (List.range P).map fun i => 'p' :: natToStr (i + 1),
      ∀ c ∈ tk, pyIsSpace c = false ∧ c ≠ '\n') := by
  constructor <;> intro tk htk <;> rw [List.mem_map] at htk <;>
    obtain ⟨i, _, rfl⟩ := htk
  · exact List.cons_ne_nil _ _
  · intro c hc
    rcases List.mem_cons.mp hc with rfl | hc
    · exact ⟨by decide, by decide⟩
    · have := natToStr_subset (i + 1) c hc
      exact ⟨(digit_char_props c this).1, (digit_char_props c this).2.2.1⟩

/-- For `P ≥ 1` the header line strips to a line starting with `'p'`. -/
theorem header_line_strip (P : Nat) (hP : 1 ≤ P) :
    ∃ X, pyStrip (header_line P) = 'p' :: X := by
  obtain ⟨k, rfl⟩ : ∃ k, P = k + 1 := ⟨P - 1, by omega⟩
  obtain ⟨h1, h2⟩ := header_tokens_facts (k + 1)
  have htok : (List.range (k + 1)).map (fun i => 'p' :: natToStr (i + 1)) =
      ('p' :: natToStr 1) :: ((List.range k).map fun i => 'p' :: natToStr (i + 2)) := by
    rw [List.range_succ_eq_map, List.map_cons, List.map_map]
    rfl
  obtain ⟨X, hX⟩ := joinSep_head ' ' 'p' (natToStr 1)
    ((List.range k).map fun i => 'p' :: natToStr (i + 2))
  have hjoin : joinSep ' ' ((List.range (k + 1)).map fun i => 'p' :: natToStr (i + 1)) =
      'p' :: X := by rw [htok, hX]
  unfold pyStrip header_line
  rw [pyRstrip_append_join [' ', ' ', ' ', ' '] _ (by simp) h1
    (fun tk htk c hc => (h2 tk htk c hc).1)]
  rw [hjoin]
  refine ⟨X, ?_⟩
  unfold pyLstrip
  rw [show ([' ', ' ', ' ', ' '] ++ 'p' :: X : Str) =
    ' ' :: ' ' :: ' ' :: ' ' :: 'p' :: X from rfl]
  rw [List.dropWhile_cons_of_pos (by decide), List.dropWhile_cons_of_pos (by decide),
    List.dropWhile_cons_of_pos (by decide), List.dropWhile_cons_of_pos (by decide),
    List.dropWhile_cons_of_neg (by decide)]

/-- The header line is `rstrip`-invariant for `P ≥ 1`. -/
theorem header_line_rstrip (P : Nat) (hP : 1 ≤ P) :
    pyRstrip (header_line P) = header_line P := by
  obtain ⟨h1, h2⟩ := header_tokens_facts P
  unfold header_line
  exact pyRstrip_append_join [' ', ' ', ' ', ' '] _
    (by simp only [ne_eq, List.map_eq_nil_iff, List.range_eq_nil]; omega) h1
    (fun tk htk c hc => (h2 tk htk c hc).1)

/-! ### Predicate values on the formatted lines -/

/-- The marking line satisfies `mPred`. -/
theorem mPred_marking_line (M : List Int) (hMne : M ≠ [])
    (hM : ∀ v ∈ M, 0 ≤ v) : mPred (marking_line M) = true := by
  unfold mPred
  rw [show marking_line M = 'M' :: (':' :: ' ' :: joinSep ' ' (M.map intToStr))
    from rfl]
  rw [pyStrip_eq_self _ (by intro d hd; cases hd; decide)
    (by
      intro d hd
      exact marking_line_last M hMne hM d hd)]
  rw [pyLower_cons, pyLower_cons,
    show pyToLower 'M' = 'm' from by decide,
    show pyToLower ':' = ':' from by decide]
  simp [pyStartswith]

/-- The marking line fails the block predicates (head `'m'`, not `'w'`). -/
theorem wPred_marking_line (M : List Int) (hMne : M ≠ [])
    (hM : ∀ v ∈ M, 0 ≤ v) :
    winPred (marking_line M) = false ∧ woutPred (marking_line M) = false := by
  unfold winPred woutPred
  rw [marking_line_cons]
  constructor <;>
    exact startswith_strip_lower_head 'M' _ (by decide)
      (by rw [← marking_line_cons]; exact marking_line_last M hMne hM)
      'w' _ (by decide)

/-- A matrix row line fails all three scan predicates (head `'t'`). -/
theorem preds_matrix_row_line (W : List (List Int)) (P t : Nat) (hP : 1 ≤ P)
    (hbin : ∀ p < P, Wget W t p = 0 ∨ Wget W t p = 1) :
    mPred (matrix_row_line W P t) = false ∧
    winPred (matrix_row_line W P t) = false ∧
    woutPred (matrix_row_line W P t) = false := by
  obtain ⟨Y, hY⟩ := matrix_row_line_head W P t
  unfold mPred winPred woutPred
  rw [hY]
  refine ⟨?_, ?_, ?_⟩ <;>
    exact startswith_strip_lower_head 't' _ (by decide)
      (by rw [← hY]; exact matrix_row_line_last W P t hP hbin)
      _ _ (by decide)

/-- The header line fails all three scan predicates (strips to head `'p'`). -/
theorem preds_header_line (P : Nat) (hP : 1 ≤ P) :
    mPred (header_line P) = false ∧
    winPred (header_line P) = false ∧
    woutPred (header_line P) = false := by
  obtain ⟨X, hX⟩ := header_line_strip P hP
  unfold mPred winPred woutPred
  rw [hX, pyLower_cons, show pyToLower 'p' = 'p' from by decide]
  refine ⟨?_, ?_, ?_⟩ <;> exact pyStartswith_ne _ 'p' (by decide) _ _

/-- The label of a row line strips and lowers to itself. -/
theorem label_strip_lower (t : Nat) :
    pyLower (pyStrip ('t' :: natToStr (t + 1))) = 't' :: natToStr (t + 1) := by
  have hdig := natToStr_subset (t + 1)
  rw [pyStrip_eq_self _ (by intro d hd; cases hd; decide)
    (by
      intro d hd
      rw [show ('t' :: natToStr (t + 1) : Str) = ['t'] ++ natToStr (t + 1)
          from rfl,
        List.getLast?_append_of_ne_nil ['t'] (natToStr_ne_nil (t + 1))] at hd
      exact (digit_char_props d (hdig d (List.mem_of_mem_getLast? hd))).1)]
  rw [pyLower_cons, show pyToLower 't' = 't' from by decide,
    pyLower_eq_self _ fun c hc => (digit_char_props c (hdig c hc)).2.1]

/-! ### Row-level round trip -/

/-- `parseRow` recovers exactly the formatted row of a binary, somewhere-1
matrix row. -/
theorem parseRow_roundtrip (rows : List Str) (W : List (List Int)) (P t : Nat)
    (hP : 1 ≤ P)
    (hrow : rows[t]? = some (matrix_row_line W P t))
    (hbin : ∀ p < P, Wget W t p = 0 ∨ Wget W t p = 1)
    (hsum : ((List.range P).map fun p => Wget W t p).sum ≠ 0) :
    parseRow rows P t = .ok ((List.range P).map fun p => Wget W t p) := by
  obtain ⟨hvals, htne, htdig⟩ := cell_tokens_facts W P t hbin
  have hstrip : pyStrip (matrix_row_line W P t) = matrix_row_line W P t := by
    obtain ⟨Y, hY⟩ := matrix_row_line_head W P t
    apply pyStrip_eq_self
    · intro c hc
      rw [hY] at hc
      cases hc
      decide
    · exact matrix_row_line_last W P t hP hbin
  have hempty : (matrix_row_line W P t).isEmpty = false := by
    obtain ⟨Y, hY⟩ := matrix_row_line_head W P t
    rw [hY]
    rfl
  have hsplitc : splitFirstColon (matrix_row_line W P t) =
      some ('t' :: natToStr (t + 1), ' ' :: joinSep ' '
        (((List.range P).map fun p => Wget W t p).map intToStr)) := by
    rw [matrix_row_line_split]
    apply splitFirstColon_append
    intro hc
    rcases List.mem_cons.mp hc with hcc | hcc
    · exact absurd hcc (by decide)
    · exact (digit_char_props ':' (natToStr_subset (t + 1) ':' hcc)).2.2.2 rfl
  have hsplitw : pySplit (' ' :: joinSep ' '
      (((List.range P).map fun p => Wget W t p).map intToStr)) =
      ((List.range P).map fun p => Wget W t p).map intToStr := by
    unfold pySplit
    rw [pySplit_space_cons]
    exact pySplitAux_join _ htne (digit_tokens_facts _ htdig).1
  have hmapm := mapM_pyInt_map_intToStr _ hvals
  have hany : ¬ ((((List.range P).map fun p => Wget W t p).any
      fun v => !(v == 0 || v == 1)) = true) := by
    intro hcon
    rw [List.any_eq_true] at hcon
    obtain ⟨v, hv, hvb⟩ := hcon
    rw [List.mem_map] at hv
    obtain ⟨p, hp, rfl⟩ := hv
    rw [List.mem_range] at hp
    rcases hbin p hp with h | h <;> rw [h] at hvb <;> exact absurd hvb (by decide)
  unfold parseRow
  rw [hrow]
  dsimp only
  rw [hstrip, hempty]
  simp only [Bool.false_eq_true, if_false]
  rw [hsplitc]
  dsimp only
  rw [label_strip_lower t, if_neg (by simp), hsplitw, hmapm]
  dsimp only
  rw [if_neg (by simp), if_neg hany, if_neg hsum]

/-! ### Scanning for blocks -/

theorem findSuffix_cons_pos (p : Str → Bool) (l : Str) (rest : List Str)
    (h : p l = true) : findSuffix p (l :: rest) = some (l :: rest) := by
  simp [findSuffix, h]

theorem findSuffix_cons_neg (p : Str → Bool) (l : Str) (rest : List Str)
    (h : p l = false) : findSuffix p (l :: rest) = findSuffix p rest := by
  simp [findSuffix, h]

theorem findSuffix_append_neg (p : Str → Bool) :
    ∀ (xs ys : List Str), (∀ l ∈ xs, p l = false) →
      findSuffix p (xs ++ ys) = findSuffix p ys := by
  intro xs
  induction xs with
  | nil => intro ys _; rfl
  | cons x xs ih =>
    intro ys h
    rw [List.cons_append,
      findSuffix_cons_neg p x _ (h x (List.mem_cons_self x xs)),
      ih ys fun l hl => h l (List.mem_cons_of_mem x hl)]

/-! ### Rebuilding the matrices -/

theorem getD_range_map_self (r : List Int) (P : Nat) (h : r.length = P) :
    (List.range P).map (fun i => r.getD i 0) = r := by
  subst h
  apply List.ext_getElem (by simp)
  intro i h1 h2
  rw [List.getElem_map, List.getElem_range, List.getD_eq_getElem _ _ h2]

theorem matrix_reconstruct (W : List (List Int)) (P T : Nat) (hlen : W.length = T)
    (hrows : ∀ r ∈ W, r.length = P) :
    (List.range T).map (fun t => (List.range P).map fun p => Wget W t p) = W := by
  subst hlen
  apply List.ext_getElem (by simp)
  intro t h1 h2
  rw [List.getElem_map, List.getElem_range]
  have hWt : W.getD t [] = W[t] := List.getD_eq_getElem _ _ h2
  simp only [Wget, hWt]
  exact getD_range_map_self W[t] P (hrows _ (List.getElem_mem h2))

/-! ### Block-level round trip -/

/-- `parseBlock` on the formatted lines recovers `W_in`. -/
theorem parseBlock_win_roundtrip (s : PetriNetModel) (hP1 : 1 ≤ s.P)
    (hMne : s.M ≠ []) (hMnn : ∀ v ∈ s.M, 0 ≤ v)
    (hWin_len : s.W_in.length = s.T)
    (hWin_rows : ∀ r ∈ s.W_in, r.length = s.P)
    (hWin_bin : BinaryMatrix s.W_in)
    (hWin_sum : ∀ r ∈ s.W_in, 1 ≤ r.sum)
    (hL : format_lines s = strMarkingHdr :: marking_line s.M :: [] ::
      strWinHdr :: header_line s.P ::
      (((List.range s.T).map fun t => matrix_row_line s.W_in s.P t) ++
        ([] :: strWoutHdr :: header_line s.P ::
          ((List.range s.T).map fun t => matrix_row_line s.W_out s.P t)))) :
    parseBlock (format_lines s) winPred s.P s.T = .ok s.W_in := by
  have hbin_in : ∀ t, ∀ p < s.P, Wget s.W_in t p = 0 ∨ Wget s.W_in t p = 1 :=
    fun t p _ => hWin_bin.wget t p
  have hsum_in : ∀ t < s.T,
      ((List.range s.P).map fun p => Wget s.W_in t p).sum ≠ 0 := by
    intro t ht
    have hmem : s.W_in.getD t [] ∈ s.W_in := by
      rw [List.getD_eq_getElem _ _ (by omega : t < s.W_in.length)]
      exact List.getElem_mem _
    have hrw : ((List.range s.P).map fun p => Wget s.W_in t p) =
        s.W_in.getD t [] := by
      simp only [Wget]
      exact getD_range_map_self _ _ (hWin_rows _ hmem)
    rw [hrw]
    have := hWin_sum _ hmem
    omega
  have hfs : findSuffix winPred (format_lines s) =
      some (strWinHdr :: header_line s.P ::
        (((List.range s.T).map fun t => matrix_row_line s.W_in s.P t) ++
          ([] :: strWoutHdr :: header_line s.P ::
            ((List.range s.T).map fun t => matrix_row_line s.W_out s.P t)))) := by
    rw [hL, findSuffix_cons_neg _ _ _ (by decide),
      findSuffix_cons_neg _ _ _ (wPred_marking_line s.M hMne hMnn).1,
      findSuffix_cons_neg _ _ _ (by decide),
      findSuffix_cons_pos _ _ _ (by decide)]
  unfold parseBlock
  rw [hfs]
  dsimp only
  rw [if_neg (by simp), if_neg (by
    simp only [List.length_cons, List.length_append, List.length_map,
      List.length_range]
    omega)]
  have hrows : ∀ t ∈ List.range s.T,
      parseRow
        ((((List.range s.T).map fun t => matrix_row_line s.W_in s.P t) ++
          ([] :: strWoutHdr :: header_line s.P ::
            ((List.range s.T).map fun t => matrix_row_line s.W_out s.P t))))
        s.P t = .ok ((List.range s.P).map fun p => Wget s.W_in t p) := by
    intro t ht
    rw [List.mem_range] at ht
    apply parseRow_roundtrip _ _ _ _ hP1 _ (hbin_in t) (hsum_in t ht)
    rw [List.getElem?_append_left (by simpa using ht), List.getElem?_map]
    simp [List.getElem?_range, ht]
  rw [show ((strWinHdr :: header_line s.P ::
      (((List.range s.T).map fun t => matrix_row_line s.W_in s.P t) ++
        ([] :: strWoutHdr :: header_line s.P ::
          ((List.range s.T).map fun t => matrix_row_line s.W_out s.P t)))).drop 2) =
      (((List.range s.T).map fun t => matrix_row_line s.W_in s.P t) ++
        ([] :: strWoutHdr :: header_line s.P ::
          ((List.range s.T).map fun t => matrix_row_line s.W_out s.P t)))
    from rfl]
  rw [exceptMapM_ok_of_forall _ _ hrows]
  rw [matrix_reconstruct s.W_in s.P s.T hWin_len hWin_rows]

/-- `parseBlock` on the formatted lines recovers `W_out`. -/
theorem parseBlock_wout_roundtrip (s : PetriNetModel) (hP1 : 1 ≤ s.P)
    (hMne : s.M ≠ []) (hMnn : ∀ v ∈ s.M, 0 ≤ v)
    (hWin_bin : BinaryMatrix s.W_in)
    (hWout_len : s.W_out.length = s.T)
    (hWout_rows : ∀ r ∈ s.W_out, r.length = s.P)
    (hWout_bin : BinaryMatrix s.W_out)
    (hWout_sum : ∀ r ∈ s.W_out, 1 ≤ r.sum)
    (hL : format_lines s = strMarkingHdr :: marking_line s.M :: [] ::
      strWinHdr :: header_line s.P ::
      (((List.range s.T).map fun t => matrix_row_line s.W_in s.P t) ++
        ([] :: strWoutHdr :: header_line s.P ::
          ((List.range s.T).map fun t => matrix_row_line s.W_out s.P t)))) :
    parseBlock (format_lines s) woutPred s.P s.T = .ok s.W_out := by
  have hbin_in : ∀ t, ∀ p < s.P, Wget s.W_in t p = 0 ∨ Wget s.W_in t p = 1 :=
    fun t p _ => hWin_bin.wget t p
  have hbin_out : ∀ t, ∀ p < s.P, Wget s.W_out t p = 0 ∨ Wget s.W_out t p = 1 :=
    fun t p _ => hWout_bin.wget t p
  have hsum_out : ∀ t < s.T,
      ((List.range s.P).map fun p => Wget s.W_out t p).sum ≠ 0 := by
    intro t ht
    have hmem : s.W_out.getD t [] ∈ s.W_out := by
      rw [List.getD_eq_getElem _ _ (by omega : t < s.W_out.length)]
      exact List.getElem_mem _
    have hrw : ((List.range s.P).map fun p => Wget s.W_out t p) =
        s.W_out.getD t [] := by
      simp only [Wget]
      exact getD_range_map_self _ _ (hWout_rows _ hmem)
    rw [hrw]
    have := hWout_sum _ hmem
    omega
  have hfs : findSuffix woutPred (format_lines s) =
      some (strWoutHdr :: header_line s.P ::
        ((List.range s.T).map fun t => matrix_row_line s.W_out s.P t)) := by
    rw [hL, findSuffix_cons_neg _ _ _ (by decide),
      findSuffix_cons_neg _ _ _ (wPred_marking_line s.M hMne hMnn).2,
      findSuffix_cons_neg _ _ _ (by decide),
      findSuffix_cons_neg _ _ _ (by decide),
      findSuffix_cons_neg _ _ _ (preds_header_line s.P hP1).2.2,
      findSuffix_append_neg _ _ _ (by
        intro l hl
        rw [List.mem_map] at hl
        obtain ⟨t, _, rfl⟩ := hl
        exact (preds_matrix_row_line s.W_in s.P t hP1 (hbin_in t)).2.2),
      findSuffix_cons_neg _ _ _ (by decide),
      findSuffix_cons_pos _ _ _ (by decide)]
  unfold parseBlock
  rw [hfs]
  dsimp only
  rw [if_neg (by simp), if_neg (by
    simp only [List.length_cons, List.length_map, List.length_range]
    omega)]
  have hrows : ∀ t ∈ List.range s.T,
      parseRow ((List.range s.T).map fun t => matrix_row_line s.W_out s.P t)
        s.P t = .ok ((List.range s.P).map fun p => Wget s.W_out t p) := by
    intro t ht
    rw [List.mem_range] at ht
    apply parseRow_roundtrip _ _ _ _ hP1 _ (hbin_out t) (hsum_out t ht)
    rw [List.getElem?_map]
    simp [List.getElem?_range, ht]
  rw [show ((strWoutHdr :: header_line s.P ::
      ((List.range s.T).map fun t => matrix_row_line s.W_out s.P t)).drop 2) =
      ((List.range s.T).map fun t => matrix_row_line s.W_out s.P t) from rfl]
  rw [exceptMapM_ok_of_forall _ _ hrows]
  rw [matrix_reconstruct s.W_out s.P s.T hWout_len hWout_rows]

/-- A matrix row line of a binary row contains no newline. -/
theorem nl_not_mem_matrix_row_line (W : List (List Int)) (P t : Nat)
    (hbin : ∀ p < P, Wget W t p = 0 ∨ Wget W t p = 1) :
    '\n' ∉ matrix_row_line W P t := by
  obtain ⟨_, htne, htdig⟩ := cell_tokens_facts W P t hbin
  unfold matrix_row_line
  apply nl_not_mem_append_join
  · intro h
    rcases List.mem_append.mp h with h | h
    · rcases List.mem_cons.mp h with h | h
      · exact absurd h (by decide)
      · exact (digit_char_props _ (natToStr_subset _ _ h)).2.2.1 rfl
    · exact absurd h (by decide)
  · exact (digit_tokens_facts _ htdig).2.1

/-- **C5 (round-trip).**  For every valid state — marking of length `P` with
values in `[0, MAX_TOKENS]`, binary `T × P` matrices whose rows each sum to
at least `1` — parsing the formatted text with the state's own dimensions
and `MAX_TOKENS` succeeds and returns exactly the original marking, `W_in`
and `W_out`. -/
theorem parse_format_roundtrip (s : PetriNetModel)
    (hM_len : s.M.length = s.P)
    (hM : ∀ v ∈ s.M, 0 ≤ v ∧ v ≤ MAX_TOKENS)
    (hWin_len : s.W_in.length = s.T)
    (hWin_rows : ∀ r ∈ s.W_in, r.length = s.P)
    (hWin_bin : BinaryMatrix s.W_in)
    (hWin_sum : ∀ r ∈ s.W_in, 1 ≤ r.sum)
    (hWout_len : s.W_out.length = s.T)
    (hWout_rows : ∀ r ∈ s.W_out, r.length = s.P)
    (hWout_bin : BinaryMatrix s.W_out)
    (hWout_sum : ∀ r ∈ s.W_out, 1 ≤ r.sum) :
    parse_petri_from_text (format_petri_to_text s) s.P s.T MAX_TOKENS =
      .ok { num_places := s.P, num_transitions := s.T, marking := s.M,
            W_in := s.W_in, W_out := s.W_out } := by
  rcases Nat.eq_zero_or_pos s.P with hP0 | hP1
  · -- `P = 0` forces `T = 0` (a row would have to sum to `≥ 1` over no
    -- cells), and the whole state is the concrete empty one.
    have hT0 : s.T = 0 := by
      by_contra hT
      have hWne : s.W_in ≠ [] := by
        intro hnil
        rw [hnil] at hWin_len
        exact hT (by simpa using hWin_len.symm)
      obtain ⟨r, hr⟩ := List.exists_mem_of_ne_nil s.W_in hWne
      have h1 := hWin_rows r hr
      have h2 := hWin_sum r hr
      rw [hP0] at h1
      rw [List.eq_nil_of_length_eq_zero h1] at h2
      exact absurd h2 (by decide)
    obtain ⟨P, T, M, Win, Wout⟩ := s
    dsimp only at hP0 hT0 hM_len hWin_len hWout_len ⊢
    subst hP0 hT0
    rw [List.eq_nil_of_length_eq_zero hM_len,
      List.eq_nil_of_length_eq_zero hWin_len,
      List.eq_nil_of_length_eq_zero hWout_len]
    decide
  · have hMne : s.M ≠ [] := by
      intro h
      rw [h] at hM_len
      simp at hM_len
      omega
    have hMnn : ∀ v ∈ s.M, 0 ≤ v := fun v hv => (hM v hv).1
    have hM3 : ∀ v ∈ s.M, 0 ≤ v ∧ v ≤ 3 := by
      intro v hv
      have := hM v hv
      simp only [MAX_TOKENS] at this
      exact this
    have hbin_in : ∀ t, ∀ p < s.P, Wget s.W_in t p = 0 ∨ Wget s.W_in t p = 1 :=
      fun t p _ => hWin_bin.wget t p
    have hbin_out : ∀ t, ∀ p < s.P, Wget s.W_out t p = 0 ∨ Wget s.W_out t p = 1 :=
      fun t p _ => hWout_bin.wget t p
    have hL : format_lines s = strMarkingHdr :: marking_line s.M :: [] ::
        strWinHdr :: header_line s.P ::
        (((List.range s.T).map fun t => matrix_row_line s.W_in s.P t) ++
          ([] :: strWoutHdr :: header_line s.P ::
            ((List.range s.T).map fun t => matrix_row_line s.W_out s.P t))) := by
      unfold format_lines
      simp only [List.cons_append, List.nil_append, List.append_assoc]
    have hsl : pySplitlines (format_petri_to_text s) = format_lines s := by
      unfold format_petri_to_text
      apply pySplitlines_join
      · rw [hL]
        exact List.cons_ne_nil _ _
      · intro l hl
        rw [hL] at hl
        simp only [List.mem_cons, List.mem_append, List.mem_map,
          List.mem_range] at hl
        rcases hl with rfl | rfl | rfl | rfl | rfl | ⟨t, _, rfl⟩ | rfl | rfl |
          rfl | ⟨t, _, rfl⟩
        · decide
        · exact nl_not_mem_append_join ['M', ':', ' '] _ (by decide)
            (digit_tokens_facts _ (marking_tokens_facts _ hMnn).2).2.1
        · decide
        · decide
        · exact nl_not_mem_append_join [' ', ' ', ' ', ' '] _ (by decide)
            fun tk htk c hc => ((header_tokens_facts s.P).2 tk htk c hc).2
        · exact nl_not_mem_matrix_row_line s.W_in s.P t (hbin_in t)
        · decide
        · decide
        · exact nl_not_mem_append_join [' ', ' ', ' ', ' '] _ (by decide)
            fun tk htk c hc => ((header_tokens_facts s.P).2 tk htk c hc).2
        · exact nl_not_mem_matrix_row_line s.W_out s.P t (hbin_out t)
    have hrs : (format_lines s).map pyRstrip = format_lines s := by
      have hinv : ∀ l ∈ format_lines s, pyRstrip l = id l := by
        intro l hl
        rw [hL] at hl
        simp only [List.mem_cons, List.mem_append, List.mem_map,
          List.mem_range] at hl
        rcases hl with rfl | rfl | rfl | rfl | rfl | ⟨t, _, rfl⟩ | rfl | rfl |
          rfl | ⟨t, _, rfl⟩
        · decide
        · exact marking_line_rstrip s.M hMne hMnn
        · decide
        · decide
        · exact header_line_rstrip s.P hP1
        · exact matrix_row_line_rstrip s.W_in s.P t hP1 (hbin_in t)
        · decide
        · decide
        · exact header_line_rstrip s.P hP1
        · exact matrix_row_line_rstrip s.W_out s.P t hP1 (hbin_out t)
      rw [List.map_congr_left hinv, List.map_id]
    have hne_check :
        ((format_lines s).filter fun l => !(pyStrip l).isEmpty).isEmpty = false := by
      rw [hL, List.filter_cons_of_pos (by decide)]
      rfl
    have hfind : (format_lines s).find? mPred = some (marking_line s.M) := by
      rw [hL, List.find?_cons_of_neg _ (by decide),
        List.find?_cons_of_pos _ (mPred_marking_line s.M hMne hMnn)]
    have hstrip_m : pyStrip (marking_line s.M) = marking_line s.M := by
      apply pyStrip_eq_self
      · intro c hc
        rw [marking_line_cons] at hc
        cases hc
        decide
      · exact marking_line_last s.M hMne hMnn
    have hcolon : splitFirstColon (marking_line s.M) =
        some (['M'], ' ' :: joinSep ' ' (s.M.map intToStr)) := by
      rw [show marking_line s.M =
        ['M'] ++ ':' :: ' ' :: joinSep ' ' (s.M.map intToStr) from rfl]
      exact splitFirstColon_append _ _ (by decide)
    have hsplitM : pySplit (' ' :: joinSep ' ' (s.M.map intToStr)) =
        s.M.map intToStr := by
      unfold pySplit
      rw [pySplit_space_cons]
      exact pySplitAux_join _ (marking_tokens_facts s.M hMnn).1
        (digit_tokens_facts _ (marking_tokens_facts s.M hMnn).2).1
    have hrange : ¬ ((s.M.any fun v =>
        decide (v < 0) || decide (MAX_TOKENS < v)) = true) := by
      intro hcon
      rw [List.any_eq_true] at hcon
      obtain ⟨v, hv, hb⟩ := hcon
      simp only [Bool.or_eq_true, decide_eq_true_eq] at hb
      rcases hb with h | h
      · exact absurd h (not_lt.mpr (hM v hv).1)
      · exact absurd h (not_lt.mpr (hM v hv).2)
    unfold parse_petri_from_text
    simp only [hsl, hrs]
    rw [hne_check]
    simp only [Bool.false_eq_true, if_false]
    rw [hfind]
    dsimp only
    rw [hstrip_m, hcolon]
    dsimp only
    rw [hsplitM, mapM_pyInt_map_intToStr s.M hM3]
    dsimp only
    rw [if_neg (by simp [hM_len]), if_neg hrange,
      parseBlock_win_roundtrip s hP1 hMne hMnn hWin_len hWin_rows hWin_bin
        hWin_sum hL,
      parseBlock_wout_roundtrip s hP1 hMne hMnn hWin_bin hWout_len hWout_rows
        hWout_bin hWout_sum hL]

/-- Witness for C5: the §8 scenario state round-trips exactly. -/
theorem parse_format_roundtrip_witness :
    exNet.M.length = exNet.P ∧ (∀ v ∈ exNet.M, 0 ≤ v ∧ v ≤ MAX_TOKENS) ∧
    exNet.W_in.length = exNet.T ∧ (∀ r ∈ exNet.W_in, r.length = exNet.P) ∧
    BinaryMatrix exNet.W_in ∧ (∀ r ∈ exNet.W_in, 1 ≤ r.sum) ∧
    exNet.W_out.length = exNet.T ∧ (∀ r ∈ exNet.W_out, r.length = exNet.P) ∧
    BinaryMatrix exNet.W_out ∧ (∀ r ∈ exNet.W_out, 1 ≤ r.sum) ∧
    parse_petri_from_text (format_petri_to_text exNet) exNet.P exNet.T
      MAX_TOKENS =
      .ok { num_places := exNet.P, num_transitions := exNet.T,
            marking := exNet.M, W_in := exNet.W_in, W_out := exNet.W_out } :=
  ⟨by decide, by decide, by decide, by decide, by decide, by decide, by decide,
    by decide, by decide, by decide,
    parse_format_roundtrip exNet (by decide) (by decide) (by decide)
      (by decide) (by decide) (by decide) (by decide) (by decide) (by decide)
      (by decide)⟩
